import Mathlib

/-!
# Verification of the workflow plan validator, lifecycle handlers and error taxonomy

Shallow embedding of `packages/runtime/src/util/validate-plan.ts`, the engine
error classes, and the (spec-modelled) lifecycle handlers of the repository.

JavaScript values occurring in plans are modelled by `JValue`.  A JS object is
modelled as an insertion-ordered association list with unique keys (JS objects
cannot hold duplicate keys; the special ordering JS applies to integer-like
keys is not modelled — no plan in the claims uses integer-like step ids).
`console.warn` side effects are not modelled: in the source they never alter
control flow or any value the validator returns.
-/

set_option maxHeartbeats 1000000
set_option maxRecDepth 8000

/-- A JavaScript (JSON-like) value.  Numbers are modelled as integers, which
covers every numeric value appearing in the claims and tests. -/
inductive JValue where
  | str (s : String)
  | num (n : Int)
  | bool (b : Bool)
  | null
  | arr (xs : List JValue)
  | obj (fields : List (String × JValue))
deriving Repr, Inhabited

mutual

/-- Structural equality test on values (JS `SameValueZero` on the primitive
values the validator compares; objects are compared structurally, which
coincides on every value reachable through the validator's checks). -/
def JValue.beq (a b : JValue) : Bool :=
  match a, b with
  | .str x, .str y => x == y
  | .num x, .num y => x == y
  | .bool x, .bool y => x == y
  | .null, .null => true
  | .arr xs, .arr ys => JValue.beqList xs ys
  | .obj xs, .obj ys => JValue.beqFields xs ys
  | _, _ => false

/-- Elementwise equality test on value lists. -/
def JValue.beqList (xs ys : List JValue) : Bool :=
  match xs, ys with
  | [], [] => true
  | x :: xs2, y :: ys2 => JValue.beq x y && JValue.beqList xs2 ys2
  | _, _ => false

/-- Elementwise equality test on field lists. -/
def JValue.beqFields (xs ys : List (String × JValue)) : Bool :=
  match xs, ys with
  | [], [] => true
  | (k, v) :: xs2, (k2, v2) :: ys2 =>
    k == k2 && JValue.beq v v2 && JValue.beqFields xs2 ys2
  | _, _ => false

end

mutual

def JValue.eq_of_beq : (a b : JValue) → JValue.beq a b = true → a = b
  | .str x, .str y, h => by
    simp only [JValue.beq, beq_iff_eq] at h; rw [h]
  | .num x, .num y, h => by
    simp only [JValue.beq, beq_iff_eq] at h; rw [h]
  | .bool x, .bool y, h => by
    simp only [JValue.beq, beq_iff_eq] at h; rw [h]
  | .null, .null, _ => rfl
  | .arr xs, .arr ys, h => by
    rw [JValue.eqList_of_beq xs ys (by simpa [JValue.beq] using h)]
  | .obj xs, .obj ys, h => by
    rw [JValue.eqFields_of_beq xs ys (by simpa [JValue.beq] using h)]
  | .str _, .num _, h => by simp [JValue.beq] at h
  | .str _, .bool _, h => by simp [JValue.beq] at h
  | .str _, .null, h => by simp [JValue.beq] at h
  | .str _, .arr _, h => by simp [JValue.beq] at h
  | .str _, .obj _, h => by simp [JValue.beq] at h
  | .num _, .str _, h => by simp [JValue.beq] at h
  | .num _, .bool _, h => by simp [JValue.beq] at h
  | .num _, .null, h => by simp [JValue.beq] at h
  | .num _, .arr _, h => by simp [JValue.beq] at h
  | .num _, .obj _, h => by simp [JValue.beq] at h
  | .bool _, .str _, h => by simp [JValue.beq] at h
  | .bool _, .num _, h => by simp [JValue.beq] at h
  | .bool _, .null, h => by simp [JValue.beq] at h
  | .bool _, .arr _, h => by simp [JValue.beq] at h
  | .bool _, .obj _, h => by simp [JValue.beq] at h
  | .null, .str _, h => by simp [JValue.beq] at h
  | .null, .num _, h => by simp [JValue.beq] at h
  | .null, .bool _, h => by simp [JValue.beq] at h
  | .null, .arr _, h => by simp [JValue.beq] at h
  | .null, .obj _, h => by simp [JValue.beq] at h
  | .arr _, .str _, h => by simp [JValue.beq] at h
  | .arr _, .num _, h => by simp [JValue.beq] at h
  | .arr _, .bool _, h => by simp [JValue.beq] at h
  | .arr _, .null, h => by simp [JValue.beq] at h
  | .arr _, .obj _, h => by simp [JValue.beq] at h
  | .obj _, .str _, h => by simp [JValue.beq] at h
  | .obj _, .num _, h => by simp [JValue.beq] at h
  | .obj _, .bool _, h => by simp [JValue.beq] at h
  | .obj _, .null, h => by simp [JValue.beq] at h
  | .obj _, .arr _, h => by simp [JValue.beq] at h
termination_by a => sizeOf a

def JValue.eqList_of_beq : (xs ys : List JValue) → JValue.beqList xs ys = true → xs = ys
  | [], [], _ => rfl
  | x :: xs2, y :: ys2, h => by
    simp only [JValue.beqList, Bool.and_eq_true] at h
    rw [JValue.eq_of_beq x y h.1, JValue.eqList_of_beq xs2 ys2 h.2]
  | [], _ :: _, h => by simp [JValue.beqList] at h
  | _ :: _, [], h => by simp [JValue.beqList] at h
termination_by xs => sizeOf xs

def JValue.eqFields_of_beq :
    (xs ys : List (String × JValue)) → JValue.beqFields xs ys = true → xs = ys
  | [], [], _ => rfl
  | (k, v) :: xs2, (k2, v2) :: ys2, h => by
    simp only [JValue.beqFields, Bool.and_eq_true, beq_iff_eq] at h
    rw [h.1.1, JValue.eq_of_beq v v2 h.1.2, JValue.eqFields_of_beq xs2 ys2 h.2]
  | [], _ :: _, h => by simp [JValue.beqFields] at h
  | _ :: _, [], h => by simp [JValue.beqFields] at h
termination_by xs => sizeOf xs

end

mutual

def JValue.beq_refl : (a : JValue) → JValue.beq a a = true
  | .str _ => by simp [JValue.beq]
  | .num _ => by simp [JValue.beq]
  | .bool _ => by simp [JValue.beq]
  | .null => by simp [JValue.beq]
  | .arr xs => by simpa [JValue.beq] using JValue.beqList_refl xs
  | .obj xs => by simpa [JValue.beq] using JValue.beqFields_refl xs
termination_by a => sizeOf a

def JValue.beqList_refl : (xs : List JValue) → JValue.beqList xs xs = true
  | [] => by simp [JValue.beqList]
  | x :: xs2 => by
    simp only [JValue.beqList, Bool.and_eq_true]
    exact ⟨JValue.beq_refl x, JValue.beqList_refl xs2⟩
termination_by xs => sizeOf xs

def JValue.beqFields_refl : (xs : List (String × JValue)) → JValue.beqFields xs xs = true
  | [] => by simp [JValue.beqFields]
  | (k, v) :: xs2 => by
    simp only [JValue.beqFields, Bool.and_eq_true, beq_iff_eq]
    exact ⟨⟨trivial, JValue.beq_refl v⟩, JValue.beqFields_refl xs2⟩
termination_by xs => sizeOf xs

end

instance : DecidableEq JValue := fun a b =>
  decidable_of_iff (JValue.beq a b = true)
    ⟨JValue.eq_of_beq a b, fun h => h ▸ JValue.beq_refl a⟩

instance {ε α : Type} [DecidableEq ε] [DecidableEq α] : DecidableEq (Except ε α) := fun a b =>
  match a, b with
  | .ok x, .ok y =>
    if h : x = y then .isTrue (by rw [h]) else .isFalse (by simp [h])
  | .error x, .error y =>
    if h : x = y then .isTrue (by rw [h]) else .isFalse (by simp [h])
  | .ok _, .error _ => .isFalse (by simp)
  | .error _, .ok _ => .isFalse (by simp)

/-- A raw step: the JS object literal, an insertion-ordered field list. -/
abbrev RStep := List (String × JValue)

/-- A raw execution plan.  The source accesses `plan.options` and
`plan.workflow.steps`; the intermediate `workflow` wrapper is flattened. -/
structure Plan where
  options : RStep
  steps : List RStep
deriving Repr, DecidableEq

/-- Property read on a JS object: the value at the first matching key
(`undefined`, i.e. `none`, when absent). -/
def getField (s : RStep) (k : String) : Option JValue :=
  (s.find? (fun p => p.1 = k)).map (fun p => p.2)

/-- `Object.keys`: the field names in insertion order. -/
def keysOf (s : RStep) : List String := s.map (fun p => p.1)

/-- JS truthiness of a value. -/
def jsTruthy : JValue → Bool
  | .str s => s ≠ ""
  | .num n => n ≠ 0
  | .bool b => b
  | .null => false
  | .arr _ => true
  | .obj _ => true

/-- JS truthiness of a possibly-absent value (`undefined` is falsy). -/
def jsTruthyOpt : Option JValue → Bool
  | none => false
  | some v => jsTruthy v

mutual

/-- JS `String(v)` / template-literal rendering of a value. -/
def jsDisplay (v : JValue) : String :=
  match v with
  | .str s => s
  | .num n => toString n
  | .bool b => if b then "true" else "false"
  | .null => "null"
  | .arr xs => String.intercalate "," (jsDisplayList xs)
  | .obj _ => "[object Object]"

/-- Rendering of the elements of an array value. -/
def jsDisplayList (xs : List JValue) : List String :=
  match xs with
  | [] => []
  | x :: rest => jsDisplay x :: jsDisplayList rest

end

/-- Template-literal rendering of a possibly-absent value. -/
def jsDisplayOpt : Option JValue → String
  | none => "undefined"
  | some v => jsDisplay v

/-! ## The zod schemas

The source declares `stepSchema` and `executionPlanSchema` with `zod` and runs
`executionPlanSchema.parse(plan)`.  zod collects one issue per violation over
the whole value (object shapes are traversed in declaration order) and the
parse throws exactly when the issue list is nonempty.  `planIssues` below is
that issue list for the schemas declared in the source. -/

/-- One zod issue: code, message, and the path to the offending value. -/
structure ZodIssue where
  code : String
  message : String
  path : List String
deriving Repr, DecidableEq

/-- zod's name for the runtime type of a value (`parsedType`). -/
def typeName : JValue → String
  | .str _ => "string"
  | .num _ => "number"
  | .bool _ => "boolean"
  | .null => "null"
  | .arr _ => "array"
  | .obj _ => "object"

/-- `z.string().optional()` at a field. -/
def optionalString (path : List String) : Option JValue → List ZodIssue
  | none => []
  | some (.str _) => []
  | some v => [⟨"invalid_type", "Expected string, received " ++ typeName v, path⟩]

/-- `z.string().min(n, msg).optional()` at a field. -/
def optionalStringMin (path : List String) (minLen : Nat) (minMsg : String) :
    Option JValue → List ZodIssue
  | none => []
  | some (.str s) =>
    if s.length < minLen then [⟨"too_small", minMsg, path⟩] else []
  | some v => [⟨"invalid_type", "Expected string, received " ++ typeName v, path⟩]

/-- `z.number().min(0, msg).optional()` at a field. -/
def optionalNonNegNumber (path : List String) (minMsg : String) :
    Option JValue → List ZodIssue
  | none => []
  | some (.num n) => if n < 0 then [⟨"too_small", minMsg, path⟩] else []
  | some v => [⟨"invalid_type", "Expected number, received " ++ typeName v, path⟩]

/-- `z.boolean().optional()` at a field. -/
def optionalBoolean (path : List String) : Option JValue → List ZodIssue
  | none => []
  | some (.bool _) => []
  | some v => [⟨"invalid_type", "Expected boolean, received " ++ typeName v, path⟩]

/-- `z.union([z.string(), z.record(z.string(), z.any())]).optional()` — the
`next` field.  A string or any object passes (record values are `z.any()`);
anything else fails the union. -/
def nextFieldIssues (path : List String) : Option JValue → List ZodIssue
  | none => []
  | some (.str _) => []
  | some (.obj _) => []
  | some _ => [⟨"invalid_union", "Invalid input", path⟩]

/-- Issues of `stepSchema` on one step, shape keys in declaration order
(`id`, `name`, `next`, `previous`, `adaptor`, `expression`, `state`,
`configuration`, `linker`; the last four are `z.any()`). -/
def stepIssues (base : List String) (s : RStep) : List ZodIssue :=
  optionalString (base ++ ["id"]) (getField s "id")
  ++ optionalStringMin (base ++ ["name"]) 3 "Name must be at least 3 characters long"
      (getField s "name")
  ++ nextFieldIssues (base ++ ["next"]) (getField s "next")
  ++ optionalStringMin (base ++ ["adaptor"]) 3 "Adaptor must be at least 3 characters long"
      (getField s "adaptor")
  ++ optionalString (base ++ ["expression"]) (getField s "expression")

/-- Issues of the `options` object schema. -/
def optionsIssues (opts : RStep) : List ZodIssue :=
  optionalNonNegNumber ["options", "timeout"] "Timeout must be a non-negative number"
      (getField opts "timeout")
  ++ optionalNonNegNumber ["options", "stepTimeout"] "Step timeout must be a non-negative number"
      (getField opts "stepTimeout")
  ++ optionalString ["options", "start"] (getField opts "start")
  ++ optionalString ["options", "end"] (getField opts "end")
  ++ optionalBoolean ["options", "sanitize"] (getField opts "sanitize")

/-- All issues of `executionPlanSchema.parse(plan)`. -/
def planIssues (p : Plan) : List ZodIssue :=
  optionsIssues p.options
  ++ (p.steps.enum.map
        (fun q => stepIssues ["workflow", "steps", toString q.1] q.2)).flatten

/-- `formatZodErrors` from the source: `path.join('.')` plus code/message. -/
structure FormattedError where
  code : String
  message : String
  path : String
deriving Repr, DecidableEq

/-- Source `formatZodErrors`. -/
def formatZodErrors (errors : List ZodIssue) : List FormattedError :=
  errors.map (fun e => ⟨e.code, e.message, String.intercalate "." e.path⟩)

/-- Source `formattedErrorsToString`: one `<path>: <message>` line per error. -/
def formattedErrorsToString (fes : List FormattedError) : String :=
  String.intercalate "\n" (fes.map (fun e => e.path ++ ": " ++ e.message))

/-! ## The dependency model (`buildModel`) -/

/-- A model node: `up` (ancestors) and `down` (descendants) are
`Record<string, true>` — insertion-ordered key lists without duplicates. -/
structure ModelNode where
  up : List String
  down : List String
deriving Repr, DecidableEq

/-- The dependency model: step id to node, insertion ordered. -/
abbrev Model := List (String × ModelNode)

/-- Record key insertion: `rec[k] = true`. -/
def insertKey (l : List String) (k : String) : List String :=
  if k ∈ l then l else l ++ [k]

/-- Look a node up in the model. -/
def lookupModel (m : Model) (id : String) : Option ModelNode :=
  (m.find? (fun p => p.1 = id)).map (fun p => p.2)

/-- Source `ensureModel`: create an empty node for the id when missing. -/
def ensureModel (id : String) (m : Model) : Model :=
  if m.any (fun p => p.1 = id) then m else m ++ [(id, ⟨[], []⟩)]

/-- Update one node of the model in place. -/
def updateNode (m : Model) (id : String) (f : ModelNode → ModelNode) : Model :=
  m.map (fun p => if p.1 = id then (p.1, f p.2) else p)

/-- `model[jid].down[nextId] = true`. -/
def addDown (m : Model) (jid nextId : String) : Model :=
  updateNode m jid (fun n => ⟨n.up, insertKey n.down nextId⟩)

/-- `model[nextId].up[jid] = true`. -/
def addUp (m : Model) (nextId jid : String) : Model :=
  updateNode m nextId (fun n => ⟨insertKey n.up jid, n.down⟩)

/-- The id of a step when it is truthy, coerced to the string JS uses as an
object key (`if (item.id) obj[item.id] = item`). -/
def truthyKey (s : RStep) : Option String :=
  match getField s "id" with
  | some v => if jsTruthy v then some (jsDisplay v) else none
  | none => none

/-- Source `jobIdx`: the table of declared (truthy) step ids. -/
def jobIdxOf (steps : List RStep) : List String := steps.filterMap truthyKey

/-- The key-value pairs `for (const nextId in job.next)` iterates over:
object fields; for an array, its indices paired with its elements.  Other
values (including `undefined`) enumerate nothing. -/
def nextPairs (s : RStep) : List (String × JValue) :=
  match getField s "next" with
  | some (.obj pairs) => pairs
  | some (.arr xs) => xs.enum.map (fun q => (toString q.1, q.2))
  | _ => []

/-- The model mutation for one `nextId` of a mapping-form `next`:
`node.down[nextId] = true` (dropped into a throwaway node when the step has
no truthy id), then `ensureModel(nextId)`, then `nextNode.up[job.id] = true`
when the step has a truthy id. -/
def recordEdge (jid : Option String) (m : Model) (nextId : String) : Model :=
  match jid with
  | some j => addUp (ensureModel nextId (addDown m j nextId)) nextId j
  | none => ensureModel nextId m

def processNextPairs (jobIdx : List String) (jid : Option String) :
    Model → List (String × JValue) → Except String Model
  | m, [] => .ok m
  | m, (nextId, _) :: rest =>
    if nextId ∈ jobIdx then
      processNextPairs jobIdx jid (recordEdge jid m nextId) rest
    else .error ("Cannot find job: " ++ nextId)

/-- `let node = job.id ? ensureModel(job.id) : {up:{}, down:{}}` — for a
truthy id the node joins the model; otherwise the throwaway node leaves the
model unchanged. -/
def ensureSelf (jid : Option String) (m : Model) : Model :=
  match jid with
  | some j => ensureModel j m
  | none => m

/-- One iteration of the `for (const job of workflow.steps)` loop. -/
def processStep (jobIdx : List String) (m : Model) (s : RStep) : Except String Model :=
  let jid := truthyKey s
  let m0 := ensureSelf jid m
  match getField s "next" with
  | some (.str target) =>
    if target ∈ jobIdx then .ok m0 else .error ("Cannot find job: " ++ target)
  | _ => processNextPairs jobIdx jid m0 (nextPairs s)

/-- The step loop of `buildModel`. -/
def buildModelSteps (jobIdx : List String) : Model → List RStep → Except String Model
  | m, [] => .ok m
  | m, s :: rest =>
    match processStep jobIdx m s with
    | .ok m2 => buildModelSteps jobIdx m2 rest
    | .error e => .error e

/-- Source `buildModel` (its `console.warn` diagnostics are not modelled). -/
def buildModel (p : Plan) : Except String Model :=
  buildModelSteps (jobIdxOf p.steps) [] p.steps

/-! ## The structural assertions -/

/-- Source `assertStart`: when `options.start` is a string it must equal the
raw `id` of some step (strict `===` comparison). -/
def assertStart (p : Plan) : Except String Unit :=
  match getField p.options "start" with
  | some (.str start) =>
    if p.steps.any (fun s => decide (getField s "id" = some (.str start))) then .ok ()
    else .error ("Could not find start job: " ++ start)
  | _ => .ok ()

/-- Result of a run of the validator: success, a `ValidationError` message, or
exhaustion of the recursion fuel (the source's unbounded recursion). -/
inductive RunRes (α : Type) where
  | ok (a : α)
  | error (msg : String)
  | diverge
deriving Repr, DecidableEq

/-- The `down` list of a node (empty when the id has no node). -/
def downList (m : Model) (id : String) : List String :=
  match lookupModel m id with
  | some n => n.down
  | none => []

/-- Small-step form of the source's recursive `search(from, targetId, 'down')`:
the stack holds one frame `(from, remaining stream)` per active call.  On
`nextId === targetId` it reports `Circular dependency: <from> <-> <target>`;
otherwise it recurses into `nextId`.  One unit of fuel is spent per step, so a
result of `diverge` for every fuel witnesses the source's infinite
recursion. -/
def searchRun (m : Model) (target : String) :
    Nat → List (String × List String) → RunRes Unit
  | 0, _ => .diverge
  | _ + 1, [] => .ok ()
  | fuel + 1, (_, []) :: rest => searchRun m target fuel rest
  | fuel + 1, (frm, nextId :: ids) :: rest =>
    if nextId = target then
      .error ("Circular dependency: " ++ frm ++ " <-> " ++ target)
    else
      searchRun m target fuel ((nextId, downList m nextId) :: (frm, ids) :: rest)

/-- The `for (const id in model) search(id, id, 'down')` loop. -/
def cycleLoop (m : Model) (fuel : Nat) : List String → RunRes Unit
  | [] => .ok ()
  | id :: rest =>
    match searchRun m id fuel [(id, downList m id)] with
    | .ok _ => cycleLoop m fuel rest
    | .error e => .error e
    | .diverge => .diverge

/-- Source `assertNoCircularReferences` (fuel-indexed). -/
def assertNoCircularReferences (m : Model) (fuel : Nat) : RunRes Unit :=
  cycleLoop m fuel (m.map (fun p => p.1))

/-- Source `assertSingletonDependencies`: first node with more than one
upstream edge is reported. -/
def assertSingletonDependencies : Model → Except String Unit
  | [] => .ok ()
  | (id, node) :: rest =>
    if node.up.length > 1 then .error ("Multiple dependencies detected for: " ++ id)
    else assertSingletonDependencies rest

/-- The whitelist of recognized step keys. -/
def validKeys : List String :=
  ["id", "name", "next", "previous", "adaptor", "expression", "state",
   "configuration", "linker"]

/-- `'adaptor' in step && step.adaptor && !step.expression`. -/
def hasAdaptorNoExpr (s : RStep) : Bool :=
  (getField s "adaptor").isSome && jsTruthyOpt (getField s "adaptor")
    && !jsTruthyOpt (getField s "expression")

/-- The adaptor/expression error message for a step. -/
def adaptorErrMsg (s : RStep) : String :=
  "Step with adaptor '" ++ jsDisplayOpt (getField s "adaptor")
    ++ "' must have an expression. Step id: '" ++ jsDisplayOpt (getField s "id") ++ "'."

/-- The invalid-key error message for a key of a step. -/
def invalidKeyMsg (k : String) (s : RStep) : String :=
  "Invalid key '" ++ k ++ "' found in step with id '"
    ++ jsDisplayOpt (getField s "id") ++ "'."

/-- The `Object.keys(step).forEach` whitelist scan of one step. -/
def invalidKeyCheck (s : RStep) : List String → Except String Unit
  | [] => .ok ()
  | k :: rest =>
    if k ∈ validKeys then invalidKeyCheck s rest else .error (invalidKeyMsg k s)

/-- The body of `assertStepKeys` for one step: the adaptor/expression test
runs before the key whitelist scan. -/
def stepKeysCheck (s : RStep) : Except String Unit :=
  if hasAdaptorNoExpr s then .error (adaptorErrMsg s)
  else invalidKeyCheck s (keysOf s)

/-- Source `assertStepKeys` over the step list. -/
def assertStepKeys : List RStep → Except String Unit
  | [] => .ok ()
  | s :: rest =>
    match stepKeysCheck s with
    | .ok _ => assertStepKeys rest
    | .error e => .error e

/-- Source `assertValidOptions` only emits `console.warn` diagnostics; it
never raises.  The warnings it would print: -/
def assertValidOptionsWarnings (opts : RStep) : List String :=
  (keysOf opts).filterMap (fun k =>
    if k ∈ ["timeout", "stepTimeout", "start", "end", "sanitize"] then none
    else some ("Warning: Unrecognized option '" ++ k ++ "'"))

/-- The loop of `assertValidStepIds`: a JS `Set` of the raw `id` field values
(`undefined` included — the source adds `step.id` unconditionally). -/
def dupIdLoop (seen : List (Option JValue)) : List RStep → Except String Unit
  | [] => .ok ()
  | s :: rest =>
    let idv := getField s "id"
    if idv ∈ seen then
      .error ("Duplicate step ID detected: " ++ jsDisplayOpt idv)
    else dupIdLoop (idv :: seen) rest

/-- Source `assertValidStepIds`. -/
def assertValidStepIds (steps : List RStep) : Except String Unit :=
  dupIdLoop [] steps

/-- Source `validate` (the default export), fuel-indexed through the cycle
search.  `assertValidOptions` and `assertUnreferencedSteps` only warn and are
omitted from the control flow they cannot affect. -/
def validate (fuel : Nat) (p : Plan) : RunRes Bool :=
  match planIssues p with
  | [] =>
    match assertStart p with
    | .error e => .error e
    | .ok _ =>
      match buildModel p with
      | .error e => .error e
      | .ok model =>
        match assertNoCircularReferences model fuel with
        | .error e => .error e
        | .diverge => .diverge
        | .ok _ =>
          match assertSingletonDependencies model with
          | .error e => .error e
          | .ok _ =>
            match assertStepKeys p.steps with
            | .error e => .error e
            | .ok _ =>
              match assertValidStepIds p.steps with
              | .error e => .error e
              | .ok _ => .ok true
  | issues => .error (formattedErrorsToString (formatZodErrors issues))

/-! ## The engine error taxonomy

Embedding of the `EngineError` subclasses of the engine.  Each constructor
fixes `severity` as a field of the value; the message is computed from the
constructor arguments exactly as in the source. -/

/-- An engine error value: `source`, `severity` and `type` fields plus the
computed message. -/
structure EngineError where
  source : String
  severity : String
  type : String
  message : String
deriving Repr, DecidableEq

/-- `new TimeoutError(durationInMs)`; the message branches on the JS
truthiness of the duration. -/
def mkTimeoutError (durationInMs : Int) : EngineError :=
  { source := "engine", severity := "kill", type := "TimeoutError",
    message :=
      if durationInMs ≠ 0 then
        "Workflow failed to return within " ++ toString durationInMs ++ "ms"
      else
        "Workflow failed to return within the specified time limit" }

/-- `new ExecutionError(original)`; the original error's message is kept. -/
def mkExecutionError (originalMessage : String) : EngineError :=
  { source := "engine", severity := "exception", type := "ExecutionError",
    message := originalMessage }

/-- `new CompileError(error, jobId)`. -/
def mkCompileError (errorMessage : String) (jobId : String) : EngineError :=
  { source := "engine", severity := "crash", type := "CompileError",
    message := jobId ++ ": " ++ errorMessage }

/-- `new AutoinstallError(specifier, error)`. -/
def mkAutoinstallError (specifier : String) (errorMessage : String) : EngineError :=
  { source := "engine", severity := "exception", type := "AutoinstallError",
    message := "Error installing " ++ specifier ++ ": " ++ errorMessage }

/-- `new OOMError()`. -/
def mkOOMError : EngineError :=
  { source := "engine", severity := "kill", type := "OOMError",
    message := "Run exceeded maximum memory usage" }

/-- `new ExitError(code)`. -/
def mkExitError (code : Int) : EngineError :=
  { source := "engine", severity := "crash", type := "ExitError",
    message := "Process exited with code: " ++ toString code }

/-! ## Lifecycle handlers

The implementation file (`engine-multi/src/api/lifecycle.ts`) is not among
the provided sources — only its test and its caller are — so the handlers are
modelled from the spec. -/

/-- Modelled from the spec: the Workflow Runtime State of §3/§4.4 (the
`lifecycle.ts` implementation is absent from the sources).  `duration` is −1
while running and `now − startTime` after completion; `result` is set only on
completion. -/
structure WorkflowState where
  id : String
  status : Option String
  startTime : Option Int
  duration : Option Int
  threadId : Option String
  result : Option JValue
deriving Repr, DecidableEq

/-- A fresh state for a workflow id (no prior start event). -/
def initialWorkflowState (id : String) : WorkflowState :=
  { id := id, status := none, startTime := none, duration := none,
    threadId := none, result := none }

/-- The payload of the outward `workflow-start` event. -/
structure StartOutEvent where
  workflowId : String
  threadId : String
deriving Repr, DecidableEq

/-- The payload of the outward `workflow-complete` event. -/
structure CompleteOutEvent where
  workflowId : String
  state : JValue
  duration : Int
  threadId : String
deriving Repr, DecidableEq

/-- Modelled from the spec: the `workflowStart` lifecycle handler of §4.4
(`lifecycle.ts` is absent from the sources).  On `{workflowId, threadId}` it
sets `status='running'`, `startTime=now`, `duration=-1` and the event's
`threadId`, and emits a `workflow-start` event carrying the input verbatim. -/
def workflowStart (now : Int) (st : WorkflowState) (workflowId threadId : String) :
    WorkflowState × StartOutEvent :=
  ({ st with status := some "running", startTime := some now,
             duration := some (-1), threadId := some threadId },
   { workflowId := workflowId, threadId := threadId })

/-- Modelled from the spec: the `workflowComplete` lifecycle handler of §4.4
(`lifecycle.ts` is absent from the sources).  It requires `startTime` to have
been set, computes `duration = now - startTime`, sets `status='done'` and
`result`, and emits `workflow-complete` carrying
`{workflowId, state, duration, threadId}`. -/
def workflowComplete (now : Int) (st : WorkflowState)
    (workflowId threadId : String) (finalState : JValue) :
    Option (WorkflowState × CompleteOutEvent) :=
  match st.startTime with
  | none => none
  | some t0 =>
    some ({ st with status := some "done", duration := some (now - t0),
                    result := some finalState },
          { workflowId := workflowId, state := finalState,
            duration := now - t0, threadId := threadId })

/-! ## Declarative view of the dependency model -/

/-- The target ids enumerated from a step's mapping-form `next` (string-form
`next` contributes none). -/
def nextMapKeys (s : RStep) : List String :=
  (nextPairs s).map (fun q => q.1)

/-- Every `next` target a step references: the string-form target, or the
mapping-form keys. -/
def nextTargets (s : RStep) : List String :=
  match getField s "next" with
  | some (.str t) => [t]
  | _ => nextMapKeys s

/-- `edgeB steps u t`: some step with truthy id `u` names `t` in its
mapping-form `next`. -/
def edgeB (steps : List RStep) (u t : String) : Bool :=
  steps.any (fun s => truthyKey s == some u && (nextMapKeys s).contains t)

/-- `u` is recorded as an upstream neighbour of `t` in the model. -/
def upMem (m : Model) (t u : String) : Prop :=
  ∃ node, lookupModel m t = some node ∧ u ∈ node.up

/-- `d` is recorded as a downstream neighbour of `t` in the model. -/
def downMem (m : Model) (t d : String) : Prop :=
  ∃ node, lookupModel m t = some node ∧ d ∈ node.down

/-- The ids carrying a node in the model, in insertion order. -/
def modelKeys (m : Model) : List String := m.map (fun p => p.1)

/-- Transform only the values inside a mapping-form `next` value; all other
values pass through unchanged. -/
def mapNextValue (f : JValue → JValue) : JValue → JValue
  | .obj pairs => .obj (pairs.map (fun q => (q.1, f q.2)))
  | v => v

/-- Apply `mapNextValue f` to the `next` field of a step. -/
def mapStepNextValues (f : JValue → JValue) (s : RStep) : RStep :=
  s.map (fun q => if q.1 = "next" then (q.1, mapNextValue f q.2) else q)

/-- Apply `mapStepNextValues f` to every step of a plan. -/
def mapPlanNextValues (f : JValue → JValue) (p : Plan) : Plan :=
  ⟨p.options, p.steps.map (mapStepNextValues f)⟩

/-! ## Concrete plans named in the analysis -/

/-- Two steps with distinct ids `a`, `b` both name `t` in mapping-form
`next`. -/
def planTwoFeeders : Plan :=
  ⟨[], [[("id", .str "a"), ("next", .obj [("t", .bool true)]), ("expression", .str ".")],
        [("id", .str "b"), ("next", .obj [("t", .bool true)]), ("expression", .str ".")],
        [("id", .str "t"), ("expression", .str ".")]]⟩

/-- The model `buildModel` produces for `planTwoFeeders`. -/
def modelTwoFeeders : Model :=
  [("a", ⟨[], ["t"]⟩), ("t", ⟨["a", "b"], []⟩), ("b", ⟨[], ["t"]⟩)]

/-- One step whose string-form `next` names a non-existent id `zz`. -/
def planMissingStringTarget : Plan :=
  ⟨[], [[("id", .str "a"), ("next", .str "zz"), ("expression", .str ".")]]⟩

/-- A step with a string-form `next` to `b` next to a declared `b`: the model
records no edge for it. -/
def planStringNextOnly : Plan :=
  ⟨[], [[("id", .str "a"), ("next", .str "b"), ("expression", .str ".")],
        [("id", .str "b"), ("expression", .str ".")]]⟩

/-- Steps `a {next:{b}}`, `b {next:{c}}`, `c {next:{b}}`: the id `b` is
reachable from itself along `down` edges (cycle b → c → b), and the cycle
does not pass through `a`, the first node the search starts from. -/
def planCycleBC : Plan :=
  ⟨[], [[("id", .str "a"), ("next", .obj [("b", .bool true)]), ("expression", .str ".")],
        [("id", .str "b"), ("next", .obj [("c", .bool true)]), ("expression", .str ".")],
        [("id", .str "c"), ("next", .obj [("b", .bool true)]), ("expression", .str ".")]]⟩

/-- The model `buildModel` produces for `planCycleBC`. -/
def modelCycleBC : Model :=
  [("a", ⟨[], ["b"]⟩), ("b", ⟨["a", "c"], ["c"]⟩), ("c", ⟨["b"], ["b"]⟩)]

/-- Steps `a {next:{b}}`, `b {next:{b}}`: `b` loops on itself, and the first
search origin is `a`. -/
def planSelfLoopB : Plan :=
  ⟨[], [[("id", .str "a"), ("next", .obj [("b", .bool true)]), ("expression", .str ".")],
        [("id", .str "b"), ("next", .obj [("b", .bool true)]), ("expression", .str ".")]]⟩

/-- The model `buildModel` produces for `planSelfLoopB`. -/
def modelSelfLoopB : Model :=
  [("a", ⟨[], ["b"]⟩), ("b", ⟨["a", "b"], ["b"]⟩)]

/-- Two steps, both without an `id` field, otherwise valid. -/
def planTwoAnonymous : Plan :=
  ⟨[], [[("expression", .str ".")], [("expression", .str ".")]]⟩

/-- One step violating both the step-key whitelist (`invalidKey`) and the
adaptor/expression coupling (`adaptor` without `expression`). -/
def planKeyAndAdaptor : Plan :=
  ⟨[], [[("id", .str "b"), ("adaptor", .str "xyz"), ("invalidKey", .str "x")]]⟩

/-- Steps `a` (with id) and an anonymous step both name `t` in mapping-form
`next`; `t` is declared. -/
def planTwoFeedersOneAnon : Plan :=
  ⟨[], [[("id", .str "a"), ("next", .obj [("t", .bool true)]), ("expression", .str ".")],
        [("next", .obj [("t", .bool true)]), ("expression", .str ".")],
        [("id", .str "t"), ("expression", .str ".")]]⟩

/-- The step of the repository's schema test: 2-character name, 2-character
adaptor, numeric expression (three violations in one step). -/
def planSchemaTriple : Plan :=
  ⟨[], [[("id", .str "step1"), ("name", .str "St"),
         ("next", .obj [("step2", .str "invalid")]),
         ("adaptor", .str "Ad"), ("expression", .num 123)]]⟩

/-! ## Fidelity checks

Anonymous replications of the repository's own test expectations
(`validate-plan.test.ts`), evaluated on the embedding. -/

/-- The test helper `job(id, next)`. -/
def tjob (id : String) (next : List (String × JValue)) : RStep :=
  [("id", .str id), ("next", .obj next), ("expression", .str ".")]

/-- The test helper `job(id)` (its `next: undefined` field behaves as an
absent field for every check). -/
def tjob0 (id : String) : RStep :=
  [("id", .str id), ("expression", .str ".")]

example :
    buildModel ⟨[], [tjob "a" [("b", .bool true)], tjob0 "b"]⟩ =
      .ok [("a", ⟨[], ["b"]⟩), ("b", ⟨["a"], []⟩)] := by decide

example :
    buildModel ⟨[], [tjob "a" [("b", .bool true)],
                     tjob "b" [("c", .bool true), ("a", .bool true)], tjob0 "c"]⟩ =
      .ok [("a", ⟨["b"], ["b"]⟩), ("b", ⟨["a"], ["c", "a"]⟩), ("c", ⟨["b"], []⟩)] := by
  decide

example :
    validate 20 ⟨[], [tjob "a" [("b", .bool true)], tjob "b" [("a", .bool true)]]⟩ =
      .error "Circular dependency: b <-> a" := by decide

example :
    validate 20 ⟨[], [tjob "a" [("b", .bool true)], tjob "b" [("c", .bool true)],
                      tjob "c" [("a", .bool true)]]⟩ =
      .error "Circular dependency: c <-> a" := by decide

example :
    validate 30 ⟨[], [tjob "a" [("b", .bool true), ("c", .bool true)],
                      tjob "b" [("z", .bool true)], tjob "c" [("z", .bool true)],
                      tjob0 "z"]⟩ =
      .error "Multiple dependencies detected for: z" := by decide

example :
    validate 20 ⟨[], [tjob "next" [("z", .bool true)]]⟩ =
      .error "Cannot find job: z" := by decide

example :
    validate 20 ⟨[], [[("next", .str "z"), ("expression", .str ".")]]⟩ =
      .error "Cannot find job: z" := by decide

example :
    validate 20 ⟨[("start", .str "z")], [tjob0 "a"]⟩ =
      .error "Could not find start job: z" := by decide

example :
    validate 20 ⟨[], [tjob "a" [("b", .bool true)],
                      [("id", .str "b"), ("adaptor", .str "some-adaptor")]]⟩ =
      .error "Step with adaptor 'some-adaptor' must have an expression. Step id: 'b'." := by
  decide

example :
    validate 20 ⟨[], [tjob "a" [("b", .bool true)],
                      [("id", .str "b"), ("invalidKey", .str "invalid"),
                       ("expression", .str ".")]]⟩ =
      .error "Invalid key 'invalidKey' found in step with id 'b'." := by decide

example :
    validate 30 ⟨[], [tjob "a" [("b", .bool true)], tjob "b" [("c", .bool true)],
                      tjob "b" [("c", .bool true)], tjob0 "c"]⟩ =
      .error "Duplicate step ID detected: b" := by decide

example :
    validate 20 ⟨[], [[("id", .str "step1"), ("name", .str "St"),
                       ("next", .obj [("step2", .str "invalid")]),
                       ("adaptor", .str "Ad"), ("expression", .num 123)]]⟩ =
      .error ("workflow.steps.0.name: Name must be at least 3 characters long\n"
        ++ "workflow.steps.0.adaptor: Adaptor must be at least 3 characters long\n"
        ++ "workflow.steps.0.expression: Expected string, received number") := by decide

example :
    validate 20 ⟨[("timeout", .num (-5)), ("start", .str "start"), ("end", .str "end")],
                 [[("id", .str "step1"), ("expression", .str ".")],
                  [("id", .str "step2"), ("expression", .str ".")]]⟩ =
      .error "options.timeout: Timeout must be a non-negative number" := by decide

example :
    validate 20 ⟨[], [tjob "a" [("b", .bool true)], tjob "b" [("c", .bool true)],
                      tjob0 "c", tjob0 "d"]⟩ = .ok true := by decide

/-! ## Plumbing lemmas about the control flow of `validate` -/

theorem validate_eq_of_schema (fuel : Nat) (p : Plan) (i : ZodIssue) (l : List ZodIssue)
    (h : planIssues p = i :: l) :
    validate fuel p =
      .error (formattedErrorsToString (formatZodErrors (planIssues p))) := by
  unfold validate
  simp only [h]

theorem validate_diverge_of (fuel : Nat) (p : Plan) (m : Model)
    (h1 : planIssues p = []) (h2 : assertStart p = .ok ())
    (h3 : buildModel p = .ok m)
    (h4 : assertNoCircularReferences m fuel = .diverge) :
    validate fuel p = .diverge := by
  unfold validate
  simp only [h1, h2, h3, h4]

theorem validate_eq_of_model_error (fuel : Nat) (p : Plan) (e : String)
    (h1 : planIssues p = []) (h2 : assertStart p = .ok ())
    (h3 : buildModel p = .error e) :
    validate fuel p = .error e := by
  unfold validate
  simp only [h1, h2, h3]

theorem validate_eq_of_singleton_error (fuel : Nat) (p : Plan) (m : Model) (e : String)
    (h1 : planIssues p = []) (h2 : assertStart p = .ok ())
    (h3 : buildModel p = .ok m)
    (h4 : assertNoCircularReferences m fuel = .ok ())
    (h5 : assertSingletonDependencies m = .error e) :
    validate fuel p = .error e := by
  unfold validate
  simp only [h1, h2, h3, h4, h5]

theorem validate_eq_of_stepKeys_error (fuel : Nat) (p : Plan) (m : Model) (e : String)
    (h1 : planIssues p = []) (h2 : assertStart p = .ok ())
    (h3 : buildModel p = .ok m)
    (h4 : assertNoCircularReferences m fuel = .ok ())
    (h5 : assertSingletonDependencies m = .ok ())
    (h6 : assertStepKeys p.steps = .error e) :
    validate fuel p = .error e := by
  unfold validate
  simp only [h1, h2, h3, h4, h5, h6]

theorem validate_ok_stepIds (fuel : Nat) (p : Plan) (h : validate fuel p = .ok true) :
    assertValidStepIds p.steps = .ok () := by
  unfold validate at h
  split at h
  · split at h
    · simp at h
    · split at h
      · simp at h
      · split at h
        · simp at h
        · simp at h
        · split at h
          · simp at h
          · split at h
            · simp at h
            · split at h
              · simp at h
              · rename_i hids
                rw [hids]
  · simp at h

/-! ## Divergence of the cycle search -/

/-- When two (not necessarily distinct) nodes other than the target point at
each other through singleton `down` streams, the search starting inside the
pair exhausts any amount of fuel: this is the source's infinite recursion. -/
theorem searchRun_two_cycle (m : Model) (t u v : String)
    (hu : u ≠ t) (hv : v ≠ t)
    (hdu : downList m u = [v]) (hdv : downList m v = [u]) :
    ∀ fuel : Nat,
      (∀ rest, searchRun m t fuel ((u, [v]) :: rest) = .diverge) ∧
      (∀ rest, searchRun m t fuel ((v, [u]) :: rest) = .diverge) := by
  intro fuel
  induction fuel with
  | zero => exact ⟨fun _ => rfl, fun _ => rfl⟩
  | succ n ih =>
    constructor
    · intro rest
      have hstep : searchRun m t (n + 1) ((u, [v]) :: rest)
          = searchRun m t n ((v, downList m v) :: (u, []) :: rest) := by
        simp [searchRun, hv]
      rw [hstep, hdv]
      exact ih.2 _
    · intro rest
      have hstep : searchRun m t (n + 1) ((v, [u]) :: rest)
          = searchRun m t n ((u, downList m u) :: (v, []) :: rest) := by
        simp [searchRun, hu]
      rw [hstep, hdu]
      exact ih.1 _

theorem cycleLoop_diverge_head (m : Model) (fuel : Nat) (id : String) (rest : List String)
    (h : searchRun m id fuel [(id, downList m id)] = .diverge) :
    cycleLoop m fuel (id :: rest) = .diverge := by
  unfold cycleLoop
  rw [h]

theorem assertNoCircular_planCycleBC (fuel : Nat) :
    assertNoCircularReferences modelCycleBC fuel = .diverge := by
  have key := searchRun_two_cycle modelCycleBC "a" "b" "c"
    (by decide) (by decide) (by decide) (by decide)
  show cycleLoop modelCycleBC fuel ["a", "b", "c"] = .diverge
  apply cycleLoop_diverge_head
  match fuel with
  | 0 => rfl
  | n + 1 =>
    have hstep : searchRun modelCycleBC "a" (n + 1) [("a", downList modelCycleBC "a")]
        = searchRun modelCycleBC "a" n (("b", downList modelCycleBC "b") :: ("a", []) :: []) := by
      simp [searchRun]
    rw [hstep]
    exact (key n).1 _

theorem assertNoCircular_planSelfLoopB (fuel : Nat) :
    assertNoCircularReferences modelSelfLoopB fuel = .diverge := by
  have key := searchRun_two_cycle modelSelfLoopB "a" "b" "b"
    (by decide) (by decide) (by decide) (by decide)
  show cycleLoop modelSelfLoopB fuel ["a", "b"] = .diverge
  apply cycleLoop_diverge_head
  match fuel with
  | 0 => rfl
  | n + 1 =>
    have hstep : searchRun modelSelfLoopB "a" (n + 1) [("a", downList modelSelfLoopB "a")]
        = searchRun modelSelfLoopB "a" n (("b", downList modelSelfLoopB "b") :: ("a", []) :: []) := by
      simp [searchRun]
    rw [hstep]
    exact (key n).1 _

/-! ## Claim C1 -/

/-- C1: the claim states that for every plan in which some step id is
reachable from itself via `down` edges, `validate` raises
`Circular dependency: <a> <-> <b>`.  On `planCycleBC` the id `b` is reachable
from itself (b → c → b), yet for every amount of fuel the validator's
depth-first search — started from `a`, which reaches the cycle but is not on
it — recurses forever and never returns or raises: the missing visited set
makes the source overflow the stack instead of reporting the cycle. -/
theorem C1_cycle_reachable_not_reported :
    ∀ fuel : Nat, validate fuel planCycleBC = .diverge := by
  intro fuel
  exact validate_diverge_of fuel planCycleBC modelCycleBC (by decide) (by decide)
    (by decide) (assertNoCircular_planCycleBC fuel)

/-! ## Claim C2 -/

/-- C2: the claim states that `validate` terminates on every plan, returning
`true` or raising a ValidationError.  On `planSelfLoopB` (`a {next:{b}}`,
`b {next:{b}}`) the search from origin `a` re-enters `b` forever: for every
amount of fuel the run is still incomplete, so the source's recursion — which
keeps no visited set — never terminates on this input. -/
theorem C2_validate_does_not_terminate :
    ∀ fuel : Nat, validate fuel planSelfLoopB = .diverge := by
  intro fuel
  exact validate_diverge_of fuel planSelfLoopB modelSelfLoopB (by decide) (by decide)
    (by decide) (assertNoCircular_planSelfLoopB fuel)

/-! ## Claim C9 -/

/-- C9: every failure kind carries the taxonomy's fixed severity as a field of
the constructed error value, for all constructor inputs — so the severity is
never a function of the message text: TimeoutError and OOMError are `kill`,
ExitError and CompileError are `crash`, AutoinstallError and ExecutionError
are `exception`. -/
theorem C9_severities_fixed :
    ∀ (d code : Int) (origMsg cMsg jobId specifier aMsg : String),
      (mkTimeoutError d).severity = "kill" ∧
      mkOOMError.severity = "kill" ∧
      (mkExitError code).severity = "crash" ∧
      (mkCompileError cMsg jobId).severity = "crash" ∧
      (mkAutoinstallError specifier aMsg).severity = "exception" ∧
      (mkExecutionError origMsg).severity = "exception" := by
  intro d code origMsg cMsg jobId specifier aMsg
  exact ⟨rfl, rfl, rfl, rfl, rfl, rfl⟩

/-! ## Claim C8 -/

/-- C8: on a context with no prior start, the start handler sets
`status='running'`, `duration=-1`, the event's `threadId` and a `startTime`;
a later complete event with a final state sets `status='done'`, `result` to
that state and a positive duration, and emits a workflow-complete event
carrying `{workflowId, state, duration, threadId}`. -/
theorem C8_lifecycle_start_complete (wid tid tid2 : String) (t0 t1 : Int)
    (finalState : JValue) (h : t0 < t1) :
    ∃ st1 out1 st2 out2,
      workflowStart t0 (initialWorkflowState wid) wid tid = (st1, out1) ∧
      st1.status = some "running" ∧
      st1.duration = some (-1) ∧
      st1.threadId = some tid ∧
      st1.startTime = some t0 ∧
      out1 = ⟨wid, tid⟩ ∧
      workflowComplete t1 st1 wid tid2 finalState = some (st2, out2) ∧
      st2.status = some "done" ∧
      st2.result = some finalState ∧
      st2.duration = some (t1 - t0) ∧
      0 < t1 - t0 ∧
      out2 = ⟨wid, finalState, t1 - t0, tid2⟩ := by
  refine ⟨_, _, _, _, rfl, rfl, rfl, rfl, rfl, rfl, rfl, rfl, rfl, rfl, by omega, rfl⟩

/-- Witness for C8 at the test's data: workflow `a`, start on thread `123` at
time 0, completion on thread `1` at time 1000 with state `{a: 777}`. -/
theorem C8_lifecycle_start_complete_witness :
    ∃ st1 out1 st2 out2,
      workflowStart 0 (initialWorkflowState "a") "a" "123" = (st1, out1) ∧
      st1.status = some "running" ∧
      st1.duration = some (-1) ∧
      st1.threadId = some "123" ∧
      st1.startTime = some 0 ∧
      out1 = ⟨"a", "123"⟩ ∧
      workflowComplete 1000 st1 "a" "1" (JValue.obj [("a", .num 777)]) = some (st2, out2) ∧
      st2.status = some "done" ∧
      st2.result = some (JValue.obj [("a", .num 777)]) ∧
      st2.duration = some (1000 - 0) ∧
      0 < (1000 : Int) - 0 ∧
      out2 = ⟨"a", JValue.obj [("a", .num 777)], 1000 - 0, "1"⟩ :=
  C8_lifecycle_start_complete "a" "123" "1" 0 1000 (JValue.obj [("a", .num 777)])
    (by decide)

/-! ## Claim C7 -/

/-- C7: the schema check runs before everything else and does not fail fast:
whenever the plan has at least one schema violation, `validate` raises a
single error whose message joins the issues of the whole plan, one
`<path>: <message>` line per violation. -/
theorem C7_schema_first_collects_all (fuel : Nat) (p : Plan)
    (h : planIssues p ≠ []) :
    validate fuel p =
      .error (formattedErrorsToString (formatZodErrors (planIssues p))) := by
  cases hc : planIssues p with
  | nil => exact absurd hc h
  | cons i l => rw [← hc]; exact validate_eq_of_schema fuel p i l hc

/-- Witness for C7 at the repository's own test step (2-character name,
2-character adaptor, numeric expression): all three violations are reported
in one message, exactly as the test expects. -/
theorem C7_schema_first_collects_all_witness :
    validate 20 planSchemaTriple =
      .error ("workflow.steps.0.name: Name must be at least 3 characters long\n"
        ++ "workflow.steps.0.adaptor: Adaptor must be at least 3 characters long\n"
        ++ "workflow.steps.0.expression: Expected string, received number") := by
  rw [C7_schema_first_collects_all 20 planSchemaTriple (by decide)]
  decide

/-! ## Claim C3 -/

theorem dupIdLoop_ok_iff (steps : List RStep) :
    ∀ seen : List (Option JValue),
      dupIdLoop seen steps = .ok () ↔
        ((steps.map (fun s => getField s "id")).Nodup ∧
          ∀ v ∈ steps.map (fun s => getField s "id"), v ∉ seen) := by
  induction steps with
  | nil => intro seen; simp [dupIdLoop]
  | cons s rest ih =>
    intro seen
    by_cases hmem : getField s "id" ∈ seen
    · simp only [dupIdLoop, if_pos hmem]
      constructor
      · intro h; exact absurd h (by simp)
      · rintro ⟨-, hall⟩
        exact absurd hmem (hall (getField s "id") (by simp))
    · simp only [dupIdLoop, if_neg hmem]
      rw [ih (getField s "id" :: seen)]
      simp only [List.map_cons, List.nodup_cons, List.mem_cons]
      constructor
      · rintro ⟨hnd, hall⟩
        refine ⟨⟨?_, hnd⟩, ?_⟩
        · intro hc
          exact (hall _ hc) (Or.inl rfl)
        · rintro v (rfl | hv)
          · exact hmem
          · intro hc
            exact (hall v hv) (Or.inr hc)
      · rintro ⟨⟨hni, hnd⟩, hall⟩
        refine ⟨hnd, ?_⟩
        intro v hv
        rintro (rfl | hc)
        · exact hni hv
        · exact (hall v (Or.inr hv)) hc

/-- C3 counterexample: a plan of two otherwise-valid steps that both omit
`id` is rejected as a duplicate — the source adds the raw `step.id`
(JS `undefined`) to its Set unconditionally, so the second id-less step
collides and `validate` raises `Duplicate step ID detected: undefined`. -/
theorem C3_counterexample :
    validate 10 planTwoAnonymous = .error "Duplicate step ID detected: undefined" ∧
    planTwoAnonymous.steps.all (fun s => (getField s "id").isNone) = true := by
  constructor
  · decide
  · decide

/-- C3 amended: the duplicate check compares the raw `id` field values,
with the absent value (`undefined`) participating like any other: the check
passes exactly when the raw `id` values (absent ones included) are pairwise
distinct.  Steps that omit `id` are therefore not exempt — a second id-less
step is rejected as `Duplicate step ID detected: undefined`.  Consequently a
fully successful validation implies the raw `id` values are pairwise
distinct. -/
theorem C3_amended_duplicate_check :
    (∀ steps : List RStep,
      assertValidStepIds steps = .ok () ↔
        (steps.map (fun s => getField s "id")).Nodup) ∧
    (∀ (fuel : Nat) (p : Plan), validate fuel p = .ok true →
      (p.steps.map (fun s => getField s "id")).Nodup) := by
  have hbase : ∀ steps : List RStep,
      assertValidStepIds steps = .ok () ↔
        (steps.map (fun s => getField s "id")).Nodup := by
    intro steps
    unfold assertValidStepIds
    rw [dupIdLoop_ok_iff steps []]
    simp
  refine ⟨hbase, ?_⟩
  intro fuel p h
  exact (hbase p.steps).mp (validate_ok_stepIds fuel p h)

/-- Witness for C3 amended: one id-less step next to ids `a` and `t` passes
the duplicate check, and a fully valid plan yields pairwise-distinct raw
ids. -/
theorem C3_amended_duplicate_check_witness :
    ([[("id", JValue.str "a"), ("expression", JValue.str ".")],
      [("expression", JValue.str ".")],
      [("id", JValue.str "t"), ("expression", JValue.str ".")]].map
        (fun s => getField s "id")).Nodup ∧
    (planTwoFeedersOneAnon.steps.map (fun s => getField s "id")).Nodup := by
  constructor
  · exact (C3_amended_duplicate_check.1 _).mp (by decide)
  · exact C3_amended_duplicate_check.2 10 planTwoFeedersOneAnon (by decide)

/-! ## Claim C4 -/

theorem assertStepKeys_adaptor_first (pre : List RStep) (step : RStep) (post : List RStep)
    (hpre : ∀ s ∈ pre, stepKeysCheck s = .ok ())
    (hstep : hasAdaptorNoExpr step = true) :
    assertStepKeys (pre ++ step :: post) = .error (adaptorErrMsg step) := by
  induction pre with
  | nil =>
    show assertStepKeys (step :: post) = .error (adaptorErrMsg step)
    unfold assertStepKeys stepKeysCheck
    rw [if_pos hstep]
  | cons s rest ih =>
    have hs : stepKeysCheck s = .ok () := hpre s (by simp)
    show assertStepKeys (s :: (rest ++ step :: post)) = .error (adaptorErrMsg step)
    unfold assertStepKeys
    rw [hs]
    exact ih (fun s2 hs2 => hpre s2 (by simp [hs2]))

/-- C4 counterexample: a single step violating both the key whitelist
(`invalidKey`) and the adaptor/expression coupling.  The claim's ordering
(whitelist = check 5 before coupling = check 6) predicts
`Invalid key 'invalidKey' found in step with id 'b'.`; `validate` instead
raises the adaptor/expression error, because `assertStepKeys` tests the
coupling before scanning the keys of each step. -/
theorem C4_counterexample :
    validate 10 planKeyAndAdaptor =
      .error "Step with adaptor 'xyz' must have an expression. Step id: 'b'." ∧
    "invalidKey" ∈ keysOf (planKeyAndAdaptor.steps.getD 0 []) ∧
    "invalidKey" ∉ validKeys := by
  refine ⟨by decide, by decide, by decide⟩

/-- C4 amended: after schema conformance the checks run in the fixed order
start-id existence, model build (missing `next` target), cycle freedom,
single-input, then per step in step order the adaptor/expression coupling
followed by the step-key whitelist, then duplicate id detection; the first
raised error aborts.  In particular, once the earlier checks pass, the first
step violating either per-step check reports the adaptor/expression error
whenever it has an adaptor without expression — even when the same step also
carries an unrecognized key. -/
theorem C4_amended_check_order (fuel : Nat) (opts : RStep) (pre : List RStep)
    (step : RStep) (post : List RStep) (m : Model)
    (h1 : planIssues ⟨opts, pre ++ step :: post⟩ = [])
    (h2 : assertStart ⟨opts, pre ++ step :: post⟩ = .ok ())
    (h3 : buildModel ⟨opts, pre ++ step :: post⟩ = .ok m)
    (h4 : assertNoCircularReferences m fuel = .ok ())
    (h5 : assertSingletonDependencies m = .ok ())
    (hpre : ∀ s ∈ pre, stepKeysCheck s = .ok ())
    (hstep : hasAdaptorNoExpr step = true) :
    validate fuel ⟨opts, pre ++ step :: post⟩ = .error (adaptorErrMsg step) :=
  validate_eq_of_stepKeys_error fuel ⟨opts, pre ++ step :: post⟩ m (adaptorErrMsg step)
    h1 h2 h3 h4 h5 (assertStepKeys_adaptor_first pre step post hpre hstep)

/-- Witness for C4 amended at the concrete two-violation step. -/
theorem C4_amended_check_order_witness :
    validate 10 ⟨[], [[("id", JValue.str "b"), ("adaptor", JValue.str "xyz"),
      ("invalidKey", JValue.str "x")]]⟩ =
      .error (adaptorErrMsg [("id", JValue.str "b"), ("adaptor", JValue.str "xyz"),
        ("invalidKey", JValue.str "x")]) :=
  C4_amended_check_order 10 [] []
    [("id", JValue.str "b"), ("adaptor", JValue.str "xyz"), ("invalidKey", JValue.str "x")]
    [] [("b", ⟨[], []⟩)]
    (by decide) (by decide) (by decide) (by decide) (by decide)
    (by intro s hs; exact absurd hs (by simp)) (by decide)

/-! ## Lemmas about the model primitives -/

theorem mem_insertKey (l : List String) (k a : String) :
    a ∈ insertKey l k ↔ a ∈ l ∨ a = k := by
  unfold insertKey
  by_cases h : k ∈ l
  · rw [if_pos h]
    constructor
    · exact Or.inl
    · rintro (ha | rfl)
      · exact ha
      · exact h
  · rw [if_neg h]
    simp

theorem nodup_insertKey (l : List String) (k : String) (h : l.Nodup) :
    (insertKey l k).Nodup := by
  unfold insertKey
  by_cases hk : k ∈ l
  · rwa [if_pos hk]
  · rw [if_neg hk]
    rw [List.nodup_append]
    refine ⟨h, List.nodup_singleton k, ?_⟩
    intro a ha hb
    rw [List.mem_singleton] at hb
    subst hb
    exact hk ha

theorem lookupModel_cons (k : String) (n : ModelNode) (m : Model) (t : String) :
    lookupModel ((k, n) :: m) t = if k = t then some n else lookupModel m t := by
  by_cases h : k = t
  · rw [if_pos h]
    unfold lookupModel
    rw [List.find?_cons_of_pos _ (by simpa using h)]
    rfl
  · rw [if_neg h]
    unfold lookupModel
    rw [List.find?_cons_of_neg _ (by simpa using h)]

theorem lookupModel_append (m1 m2 : Model) (t : String) :
    lookupModel (m1 ++ m2) t =
      match lookupModel m1 t with
      | some n => some n
      | none => lookupModel m2 t := by
  induction m1 with
  | nil => rfl
  | cons p m ih =>
    obtain ⟨k, n⟩ := p
    by_cases h : k = t
    · rw [List.cons_append, lookupModel_cons, if_pos h, lookupModel_cons, if_pos h]
    · rw [List.cons_append, lookupModel_cons, if_neg h, lookupModel_cons, if_neg h, ih]

theorem lookupModel_isSome_iff_any (m : Model) (j : String) :
    (lookupModel m j).isSome = m.any (fun p => p.1 = j) := by
  induction m with
  | nil => rfl
  | cons p m ih =>
    obtain ⟨k, n⟩ := p
    by_cases h : k = j
    · rw [lookupModel_cons, if_pos h]
      simp [h]
    · rw [lookupModel_cons, if_neg h]
      simp [h, ih]

theorem lookupModel_ensure (j : String) (m : Model) (t : String) :
    lookupModel (ensureModel j m) t =
      if t = j then some ((lookupModel m j).getD ⟨[], []⟩) else lookupModel m t := by
  unfold ensureModel
  by_cases hany : (m.any (fun p => p.1 = j)) = true
  · rw [if_pos hany]
    by_cases ht : t = j
    · subst ht
      have hs : (lookupModel m t).isSome = true := by
        rw [lookupModel_isSome_iff_any]; exact hany
      obtain ⟨n, hn⟩ := Option.isSome_iff_exists.mp hs
      rw [if_pos rfl, hn]
      rfl
    · rw [if_neg ht]
  · rw [if_neg hany]
    have hnone : lookupModel m j = none := by
      cases hx : lookupModel m j with
      | none => rfl
      | some n =>
        exfalso
        apply hany
        rw [← lookupModel_isSome_iff_any, hx]
        rfl
    rw [lookupModel_append]
    by_cases ht : t = j
    · subst ht
      rw [hnone, if_pos rfl, lookupModel_cons, if_pos rfl]
      rfl
    · rw [if_neg ht]
      cases hx : lookupModel m t with
      | none =>
        rw [lookupModel_cons, if_neg (fun hc => ht hc.symm)]
        rfl
      | some n => rfl

theorem lookupModel_update (m : Model) (j : String) (f : ModelNode → ModelNode) (t : String) :
    lookupModel (updateNode m j f) t =
      if t = j then (lookupModel m t).map f else lookupModel m t := by
  induction m with
  | nil =>
    unfold updateNode
    simp [lookupModel]
  | cons p m ih =>
    obtain ⟨k, n⟩ := p
    have hhead : updateNode ((k, n) :: m) j f
        = (if k = j then (k, f n) else (k, n)) :: updateNode m j f := rfl
    rw [hhead]
    by_cases hkj : k = j
    · rw [if_pos hkj]
      by_cases hkt : k = t
      · rw [lookupModel_cons, if_pos hkt, lookupModel_cons, if_pos hkt,
          if_pos (by rw [← hkt, hkj])]
        rfl
      · rw [lookupModel_cons, if_neg hkt, lookupModel_cons, if_neg hkt, ih]
    · rw [if_neg hkj]
      by_cases hkt : k = t
      · rw [lookupModel_cons, if_pos hkt, lookupModel_cons, if_pos hkt,
          if_neg (by rw [← hkt]; exact fun hc => hkj hc)]
      · rw [lookupModel_cons, if_neg hkt, lookupModel_cons, if_neg hkt, ih]

theorem upMem_ensure (j : String) (m : Model) (t u : String) :
    upMem (ensureModel j m) t u ↔ upMem m t u := by
  unfold upMem
  rw [lookupModel_ensure]
  by_cases ht : t = j
  · subst ht
    rw [if_pos rfl]
    cases h : lookupModel m t with
    | none => simp
    | some n => simp
  · rw [if_neg ht]

theorem downMem_ensure (j : String) (m : Model) (t d : String) :
    downMem (ensureModel j m) t d ↔ downMem m t d := by
  unfold downMem
  rw [lookupModel_ensure]
  by_cases ht : t = j
  · subst ht
    rw [if_pos rfl]
    cases h : lookupModel m t with
    | none => simp
    | some n => simp
  · rw [if_neg ht]

theorem upMem_addDown (m : Model) (j d : String) (t u : String) :
    upMem (addDown m j d) t u ↔ upMem m t u := by
  unfold upMem addDown
  rw [lookupModel_update]
  by_cases ht : t = j
  · subst ht
    rw [if_pos rfl]
    cases h : lookupModel m t with
    | none => simp
    | some n => simp
  · rw [if_neg ht]

theorem downMem_addUp (m : Model) (t0 j : String) (t d : String) :
    downMem (addUp m t0 j) t d ↔ downMem m t d := by
  unfold downMem addUp
  rw [lookupModel_update]
  by_cases ht : t = t0
  · subst ht
    rw [if_pos rfl]
    cases h : lookupModel m t with
    | none => simp
    | some n => simp
  · rw [if_neg ht]

theorem upMem_addUp (m : Model) (t0 j : String) (t u : String) :
    upMem (addUp m t0 j) t u ↔
      upMem m t u ∨ (t = t0 ∧ u = j ∧ (lookupModel m t0).isSome = true) := by
  unfold upMem addUp
  rw [lookupModel_update]
  by_cases ht : t = t0
  · subst ht
    rw [if_pos rfl]
    cases h : lookupModel m t with
    | none => simp [h]
    | some n =>
      simp [h, mem_insertKey]
      try tauto
  · rw [if_neg ht]
    simp [ht]

theorem downMem_addDown (m : Model) (j d : String) (t x : String) :
    downMem (addDown m j d) t x ↔
      downMem m t x ∨ (t = j ∧ x = d ∧ (lookupModel m j).isSome = true) := by
  unfold downMem addDown
  rw [lookupModel_update]
  by_cases ht : t = j
  · subst ht
    rw [if_pos rfl]
    cases h : lookupModel m t with
    | none => simp [h]
    | some n =>
      simp [h, mem_insertKey]
      try tauto
  · rw [if_neg ht]
    simp [ht]

theorem isSome_ensure (j : String) (m : Model) (t : String) :
    (lookupModel (ensureModel j m) t).isSome = true ↔
      ((lookupModel m t).isSome = true ∨ t = j) := by
  rw [lookupModel_ensure]
  by_cases ht : t = j
  · rw [if_pos ht]
    simp [ht]
  · rw [if_neg ht]
    simp [ht]

theorem isSome_update (m : Model) (j : String) (f : ModelNode → ModelNode) (t : String) :
    (lookupModel (updateNode m j f) t).isSome = (lookupModel m t).isSome := by
  rw [lookupModel_update]
  by_cases ht : t = j
  · rw [if_pos ht]
    cases lookupModel m t <;> rfl
  · rw [if_neg ht]

/-- `recordEdge` adds an up edge exactly when the source step has a truthy
id. -/
theorem upMem_recordEdge (jid : Option String) (m : Model) (nextId : String) (t u : String) :
    upMem (recordEdge jid m nextId) t u ↔
      upMem m t u ∨ (jid = some u ∧ t = nextId) := by
  cases jid with
  | none =>
    unfold recordEdge
    rw [upMem_ensure]
    simp
  | some j =>
    unfold recordEdge
    rw [upMem_addUp, upMem_ensure, upMem_addDown]
    have hsome : (lookupModel (ensureModel nextId (addDown m j nextId)) nextId).isSome = true := by
      rw [isSome_ensure]
      exact Or.inr rfl
    rw [hsome]
    simp only [Option.some.injEq, and_true]
    constructor
    · rintro (h | ⟨rfl, rfl⟩)
      · exact Or.inl h
      · exact Or.inr ⟨rfl, rfl⟩
    · rintro (h | ⟨rfl, rfl⟩)
      · exact Or.inl h
      · exact Or.inr ⟨rfl, rfl⟩

/-- `recordEdge` adds a down edge exactly when the source step has a truthy
id (whose node is already present). -/
theorem downMem_recordEdge (jid : Option String) (m : Model) (nextId : String) (t x : String)
    (hpresent : ∀ j, jid = some j → (lookupModel m j).isSome = true) :
    downMem (recordEdge jid m nextId) t x ↔
      downMem m t x ∨ (jid = some t ∧ x = nextId) := by
  cases jid with
  | none =>
    unfold recordEdge
    rw [downMem_ensure]
    simp
  | some j =>
    unfold recordEdge
    rw [downMem_addUp, downMem_ensure, downMem_addDown]
    rw [hpresent j rfl]
    simp only [Option.some.injEq, and_true]
    constructor
    · rintro (h | ⟨rfl, rfl⟩)
      · exact Or.inl h
      · exact Or.inr ⟨rfl, rfl⟩
    · rintro (h | ⟨rfl, rfl⟩)
      · exact Or.inl h
      · exact Or.inr ⟨rfl, rfl⟩

theorem isSome_recordEdge (jid : Option String) (m : Model) (nextId : String) (t : String)
    (h : (lookupModel m t).isSome = true) :
    (lookupModel (recordEdge jid m nextId) t).isSome = true := by
  cases jid with
  | none =>
    unfold recordEdge
    rw [isSome_ensure]
    exact Or.inl h
  | some j =>
    unfold recordEdge
    unfold addUp
    rw [isSome_update, isSome_ensure]
    left
    unfold addDown
    rw [isSome_update]
    exact h

/-! ## Characterization of the model-building loop -/

theorem ppp_up (jobIdx : List String) (jid : Option String) :
    ∀ (pairs : List (String × JValue)) (m m2 : Model),
      processNextPairs jobIdx jid m pairs = .ok m2 →
      ∀ t u, upMem m2 t u ↔
        upMem m t u ∨ (jid = some u ∧ t ∈ pairs.map (fun q => q.1)) := by
  intro pairs
  induction pairs with
  | nil =>
    intro m m2 h t u
    unfold processNextPairs at h
    obtain rfl : m = m2 := by injection h
    simp
  | cons q rest ih =>
    obtain ⟨nextId, v⟩ := q
    intro m m2 h t u
    unfold processNextPairs at h
    by_cases hmem : nextId ∈ jobIdx
    · rw [if_pos hmem] at h
      rw [ih _ _ h, upMem_recordEdge]
      simp only [List.map_cons, List.mem_cons]
      tauto
    · rw [if_neg hmem] at h
      exact absurd h (by simp)

theorem ppp_down (jobIdx : List String) (jid : Option String) :
    ∀ (pairs : List (String × JValue)) (m m2 : Model),
      (∀ j, jid = some j → (lookupModel m j).isSome = true) →
      processNextPairs jobIdx jid m pairs = .ok m2 →
      ∀ t x, downMem m2 t x ↔
        downMem m t x ∨ (jid = some t ∧ x ∈ pairs.map (fun q => q.1)) := by
  intro pairs
  induction pairs with
  | nil =>
    intro m m2 hpres h t x
    unfold processNextPairs at h
    obtain rfl : m = m2 := by injection h
    simp
  | cons q rest ih =>
    obtain ⟨nextId, v⟩ := q
    intro m m2 hpres h t x
    unfold processNextPairs at h
    by_cases hmem : nextId ∈ jobIdx
    · rw [if_pos hmem] at h
      have hpres2 : ∀ j, jid = some j →
          (lookupModel (recordEdge jid m nextId) j).isSome = true :=
        fun j hj => isSome_recordEdge jid m nextId j (hpres j hj)
      rw [ih _ _ hpres2 h, downMem_recordEdge jid m nextId t x hpres]
      simp only [List.map_cons, List.mem_cons]
      tauto
    · rw [if_neg hmem] at h
      exact absurd h (by simp)

theorem ppp_isSome (jobIdx : List String) (jid : Option String) :
    ∀ (pairs : List (String × JValue)) (m m2 : Model),
      processNextPairs jobIdx jid m pairs = .ok m2 →
      ∀ t, (lookupModel m t).isSome = true → (lookupModel m2 t).isSome = true := by
  intro pairs
  induction pairs with
  | nil =>
    intro m m2 h t ht
    unfold processNextPairs at h
    obtain rfl : m = m2 := by injection h
    exact ht
  | cons q rest ih =>
    obtain ⟨nextId, v⟩ := q
    intro m m2 h t ht
    unfold processNextPairs at h
    by_cases hmem : nextId ∈ jobIdx
    · rw [if_pos hmem] at h
      exact ih _ _ h t (isSome_recordEdge jid m nextId t ht)
    · rw [if_neg hmem] at h
      exact absurd h (by simp)

theorem ppp_ok (jobIdx : List String) (jid : Option String) :
    ∀ (pairs : List (String × JValue)) (m : Model),
      (∀ k ∈ pairs.map (fun q => q.1), k ∈ jobIdx) →
      ∃ m2, processNextPairs jobIdx jid m pairs = .ok m2 := by
  intro pairs
  induction pairs with
  | nil =>
    intro m _
    exact ⟨m, rfl⟩
  | cons q rest ih =>
    obtain ⟨nextId, v⟩ := q
    intro m hall
    have hmem : nextId ∈ jobIdx := hall nextId (by simp)
    obtain ⟨m2, hm2⟩ := ih (recordEdge jid m nextId) (fun k hk => hall k (by simp [hk]))
    refine ⟨m2, ?_⟩
    unfold processNextPairs
    rw [if_pos hmem]
    exact hm2

theorem upMem_ensureSelf (jid : Option String) (m : Model) (t u : String) :
    upMem (ensureSelf jid m) t u ↔ upMem m t u := by
  cases jid with
  | none => exact Iff.rfl
  | some j => exact upMem_ensure j m t u

theorem downMem_ensureSelf (jid : Option String) (m : Model) (t d : String) :
    downMem (ensureSelf jid m) t d ↔ downMem m t d := by
  cases jid with
  | none => exact Iff.rfl
  | some j => exact downMem_ensure j m t d

theorem isSome_ensureSelf (jid : Option String) (m : Model) (t : String)
    (h : (lookupModel m t).isSome = true) :
    (lookupModel (ensureSelf jid m) t).isSome = true := by
  cases jid with
  | none => exact h
  | some j =>
    unfold ensureSelf
    rw [isSome_ensure]
    exact Or.inl h

theorem isSome_ensureSelf_self (jid : Option String) (m : Model) (j : String)
    (hj : jid = some j) :
    (lookupModel (ensureSelf jid m) j).isSome = true := by
  subst hj
  unfold ensureSelf
  rw [isSome_ensure]
  exact Or.inr rfl

theorem processStep_eq_str (jobIdx : List String) (m : Model) (s : RStep) (target : String)
    (h : getField s "next" = some (.str target)) :
    processStep jobIdx m s =
      (if target ∈ jobIdx then .ok (ensureSelf (truthyKey s) m)
       else .error ("Cannot find job: " ++ target)) := by
  unfold processStep
  rw [h]

theorem processStep_eq_other (jobIdx : List String) (m : Model) (s : RStep)
    (h : ∀ target, getField s "next" ≠ some (.str target)) :
    processStep jobIdx m s =
      processNextPairs jobIdx (truthyKey s) (ensureSelf (truthyKey s) m) (nextPairs s) := by
  unfold processStep
  cases hx : getField s "next" with
  | none => rfl
  | some v =>
    cases v with
    | str t => exact absurd hx (h t)
    | num n => rfl
    | bool b => rfl
    | null => rfl
    | arr xs => rfl
    | obj fs => rfl

theorem nextMapKeys_of_str (s : RStep) (target : String)
    (h : getField s "next" = some (.str target)) : nextMapKeys s = [] := by
  unfold nextMapKeys nextPairs
  rw [h]
  rfl

theorem nextTargets_of_not_str (s : RStep)
    (h : ∀ target, getField s "next" ≠ some (.str target)) :
    nextTargets s = nextMapKeys s := by
  unfold nextTargets
  cases hx : getField s "next" with
  | none => rfl
  | some v =>
    cases v with
    | str t => exact absurd hx (h t)
    | num n => rfl
    | bool b => rfl
    | null => rfl
    | arr xs => rfl
    | obj fs => rfl

theorem processStep_up (jobIdx : List String) (m m2 : Model) (s : RStep)
    (h : processStep jobIdx m s = .ok m2) (t u : String) :
    upMem m2 t u ↔ upMem m t u ∨ (truthyKey s = some u ∧ t ∈ nextMapKeys s) := by
  by_cases hstr : ∃ target, getField s "next" = some (.str target)
  · obtain ⟨target, htgt⟩ := hstr
    rw [processStep_eq_str jobIdx m s target htgt] at h
    by_cases hmem : target ∈ jobIdx
    · rw [if_pos hmem] at h
      obtain rfl : ensureSelf (truthyKey s) m = m2 := by injection h
      rw [upMem_ensureSelf, nextMapKeys_of_str s target htgt]
      simp
    · rw [if_neg hmem] at h
      exact absurd h (by simp)
  · push_neg at hstr
    rw [processStep_eq_other jobIdx m s hstr] at h
    rw [ppp_up jobIdx (truthyKey s) (nextPairs s) _ _ h, upMem_ensureSelf]
    exact Iff.rfl

theorem processStep_down (jobIdx : List String) (m m2 : Model) (s : RStep)
    (h : processStep jobIdx m s = .ok m2) (t x : String) :
    downMem m2 t x ↔ downMem m t x ∨ (truthyKey s = some t ∧ x ∈ nextMapKeys s) := by
  by_cases hstr : ∃ target, getField s "next" = some (.str target)
  · obtain ⟨target, htgt⟩ := hstr
    rw [processStep_eq_str jobIdx m s target htgt] at h
    by_cases hmem : target ∈ jobIdx
    · rw [if_pos hmem] at h
      obtain rfl : ensureSelf (truthyKey s) m = m2 := by injection h
      rw [downMem_ensureSelf, nextMapKeys_of_str s target htgt]
      simp
    · rw [if_neg hmem] at h
      exact absurd h (by simp)
  · push_neg at hstr
    rw [processStep_eq_other jobIdx m s hstr] at h
    rw [ppp_down jobIdx (truthyKey s) (nextPairs s) _ _
      (fun j hj => isSome_ensureSelf_self (truthyKey s) m j hj) h,
      downMem_ensureSelf]
    exact Iff.rfl

theorem processStep_isSome (jobIdx : List String) (m m2 : Model) (s : RStep)
    (h : processStep jobIdx m s = .ok m2) (t : String)
    (ht : (lookupModel m t).isSome = true) :
    (lookupModel m2 t).isSome = true := by
  by_cases hstr : ∃ target, getField s "next" = some (.str target)
  · obtain ⟨target, htgt⟩ := hstr
    rw [processStep_eq_str jobIdx m s target htgt] at h
    by_cases hmem : target ∈ jobIdx
    · rw [if_pos hmem] at h
      obtain rfl : ensureSelf (truthyKey s) m = m2 := by injection h
      exact isSome_ensureSelf (truthyKey s) m t ht
    · rw [if_neg hmem] at h
      exact absurd h (by simp)
  · push_neg at hstr
    rw [processStep_eq_other jobIdx m s hstr] at h
    exact ppp_isSome jobIdx (truthyKey s) (nextPairs s) _ _ h t
      (isSome_ensureSelf (truthyKey s) m t ht)

theorem processStep_ok (jobIdx : List String) (m : Model) (s : RStep)
    (h : ∀ k ∈ nextTargets s, k ∈ jobIdx) :
    ∃ m2, processStep jobIdx m s = .ok m2 := by
  by_cases hstr : ∃ target, getField s "next" = some (.str target)
  · obtain ⟨target, htgt⟩ := hstr
    rw [processStep_eq_str jobIdx m s target htgt]
    have hmem : target ∈ jobIdx := by
      apply h
      unfold nextTargets
      rw [htgt]
      simp
    rw [if_pos hmem]
    exact ⟨_, rfl⟩
  · push_neg at hstr
    rw [processStep_eq_other jobIdx m s hstr]
    apply ppp_ok
    intro k hk
    apply h
    rw [nextTargets_of_not_str s hstr]
    exact hk

theorem processStep_err_str (jobIdx : List String) (m : Model) (s : RStep) (target : String)
    (htgt : getField s "next" = some (.str target)) (hmem : target ∉ jobIdx) :
    processStep jobIdx m s = .error ("Cannot find job: " ++ target) := by
  rw [processStep_eq_str jobIdx m s target htgt, if_neg hmem]

theorem processStep_ok_str_target (jobIdx : List String) (m m2 : Model) (s : RStep)
    (target : String) (h : processStep jobIdx m s = .ok m2)
    (htgt : getField s "next" = some (.str target)) : target ∈ jobIdx := by
  rw [processStep_eq_str jobIdx m s target htgt] at h
  by_cases hmem : target ∈ jobIdx
  · exact hmem
  · rw [if_neg hmem] at h
    exact absurd h (by simp)

theorem contains_iff_mem (l : List String) (a : String) : l.contains a = true ↔ a ∈ l := by
  simp

theorem bms_up (jobIdx : List String) :
    ∀ (steps : List RStep) (m m2 : Model),
      buildModelSteps jobIdx m steps = .ok m2 →
      ∀ t u, upMem m2 t u ↔ upMem m t u ∨ edgeB steps u t = true := by
  intro steps
  induction steps with
  | nil =>
    intro m m2 h t u
    unfold buildModelSteps at h
    obtain rfl : m = m2 := by injection h
    simp [edgeB]
  | cons s rest ih =>
    intro m m2 h t u
    unfold buildModelSteps at h
    cases hps : processStep jobIdx m s with
    | error e =>
      rw [hps] at h
      exact absurd h (by simp)
    | ok m1 =>
      rw [hps] at h
      rw [ih _ _ h, processStep_up jobIdx m m1 s hps]
      unfold edgeB
      rw [List.any_cons]
      simp only [Bool.or_eq_true, Bool.and_eq_true, beq_iff_eq, contains_iff_mem]
      tauto

theorem bms_down (jobIdx : List String) :
    ∀ (steps : List RStep) (m m2 : Model),
      buildModelSteps jobIdx m steps = .ok m2 →
      ∀ t x, downMem m2 t x ↔ downMem m t x ∨ edgeB steps t x = true := by
  intro steps
  induction steps with
  | nil =>
    intro m m2 h t x
    unfold buildModelSteps at h
    obtain rfl : m = m2 := by injection h
    simp [edgeB]
  | cons s rest ih =>
    intro m m2 h t x
    unfold buildModelSteps at h
    cases hps : processStep jobIdx m s with
    | error e =>
      rw [hps] at h
      exact absurd h (by simp)
    | ok m1 =>
      rw [hps] at h
      rw [ih _ _ h, processStep_down jobIdx m m1 s hps]
      unfold edgeB
      rw [List.any_cons]
      simp only [Bool.or_eq_true, Bool.and_eq_true, beq_iff_eq, contains_iff_mem]
      tauto

theorem bms_string_targets (jobIdx : List String) :
    ∀ (steps : List RStep) (m m2 : Model),
      buildModelSteps jobIdx m steps = .ok m2 →
      ∀ s ∈ steps, ∀ target, getField s "next" = some (.str target) → target ∈ jobIdx := by
  intro steps
  induction steps with
  | nil =>
    intro m m2 _ s hs
    exact absurd hs (by simp)
  | cons s0 rest ih =>
    intro m m2 h s hs target htgt
    unfold buildModelSteps at h
    cases hps : processStep jobIdx m s0 with
    | error e =>
      rw [hps] at h
      exact absurd h (by simp)
    | ok m1 =>
      rw [hps] at h
      rcases List.mem_cons.mp hs with rfl | hs2
      · exact processStep_ok_str_target jobIdx m m1 s target hps htgt
      · exact ih _ _ h s hs2 target htgt

theorem bms_ok (jobIdx : List String) :
    ∀ (steps : List RStep) (m : Model),
      (∀ s ∈ steps, ∀ k ∈ nextTargets s, k ∈ jobIdx) →
      ∃ m2, buildModelSteps jobIdx m steps = .ok m2 := by
  intro steps
  induction steps with
  | nil =>
    intro m _
    exact ⟨m, rfl⟩
  | cons s rest ih =>
    intro m hall
    obtain ⟨m1, hm1⟩ := processStep_ok jobIdx m s (hall s (by simp))
    obtain ⟨m2, hm2⟩ := ih m1 (fun s2 hs2 => hall s2 (by simp [hs2]))
    refine ⟨m2, ?_⟩
    unfold buildModelSteps
    rw [hm1]
    exact hm2

theorem bms_err_str (jobIdx : List String) :
    ∀ (pre : List RStep) (m : Model) (step : RStep) (post : List RStep) (target : String),
      (∀ s ∈ pre, ∀ k ∈ nextTargets s, k ∈ jobIdx) →
      getField step "next" = some (.str target) → target ∉ jobIdx →
      buildModelSteps jobIdx m (pre ++ step :: post) =
        .error ("Cannot find job: " ++ target) := by
  intro pre
  induction pre with
  | nil =>
    intro m step post target _ htgt hmem
    show buildModelSteps jobIdx m (step :: post) = _
    unfold buildModelSteps
    rw [processStep_err_str jobIdx m step target htgt hmem]
  | cons s rest ih =>
    intro m step post target hpre htgt hmem
    obtain ⟨m1, hm1⟩ := processStep_ok jobIdx m s (hpre s (by simp))
    show buildModelSteps jobIdx m (s :: (rest ++ step :: post)) = _
    unfold buildModelSteps
    rw [hm1]
    exact ih m1 step post target (fun s2 hs2 => hpre s2 (by simp [hs2])) htgt hmem

/-! ## Invariants of the built model -/

theorem modelKeys_update (m : Model) (j : String) (f : ModelNode → ModelNode) :
    modelKeys (updateNode m j f) = modelKeys m := by
  unfold modelKeys updateNode
  rw [List.map_map]
  apply List.map_congr_left
  intro q _
  by_cases hq : q.1 = j
  · simp [hq]
  · simp [hq]

theorem any_fst_iff_mem_keys (m : Model) (j : String) :
    (m.any (fun p => p.1 = j)) = true ↔ j ∈ modelKeys m := by
  rw [List.any_eq_true]
  unfold modelKeys
  rw [List.mem_map]
  constructor
  · rintro ⟨q, hq, hpred⟩
    exact ⟨q, hq, by simpa using hpred⟩
  · rintro ⟨q, hq, hq1⟩
    exact ⟨q, hq, by simpa using hq1⟩

theorem modelKeys_ensure_of_absent (j : String) (m : Model)
    (h : ¬(m.any (fun p => p.1 = j)) = true) :
    modelKeys (ensureModel j m) = modelKeys m ++ [j] := by
  unfold ensureModel
  rw [if_neg h]
  simp [modelKeys]

theorem keysNodup_ensure (j : String) (m : Model) (h : (modelKeys m).Nodup) :
    (modelKeys (ensureModel j m)).Nodup := by
  by_cases hany : (m.any (fun p => p.1 = j)) = true
  · unfold ensureModel
    rw [if_pos hany]
    exact h
  · rw [modelKeys_ensure_of_absent j m hany]
    rw [List.nodup_append]
    refine ⟨h, List.nodup_singleton j, ?_⟩
    intro a ha hb
    rw [List.mem_singleton] at hb
    subst hb
    exact hany ((any_fst_iff_mem_keys m a).mpr ha)

theorem keysNodup_recordEdge (jid : Option String) (m : Model) (nextId : String)
    (h : (modelKeys m).Nodup) : (modelKeys (recordEdge jid m nextId)).Nodup := by
  cases jid with
  | none => exact keysNodup_ensure nextId m h
  | some j =>
    unfold recordEdge addUp
    rw [modelKeys_update]
    apply keysNodup_ensure
    unfold addDown
    rw [modelKeys_update]
    exact h

theorem upNodup_update (m : Model) (j : String) (f : ModelNode → ModelNode)
    (hf : ∀ n : ModelNode, n.up.Nodup → (f n).up.Nodup)
    (h : ∀ q ∈ m, (Prod.snd q).up.Nodup) :
    ∀ q ∈ updateNode m j f, (Prod.snd q).up.Nodup := by
  intro q hq
  unfold updateNode at hq
  obtain ⟨q0, hq0, rfl⟩ := List.mem_map.mp hq
  by_cases hj : q0.1 = j
  · rw [if_pos hj]
    exact hf q0.2 (h q0 hq0)
  · rw [if_neg hj]
    exact h q0 hq0

theorem upNodup_ensure (j : String) (m : Model)
    (h : ∀ q ∈ m, (Prod.snd q).up.Nodup) :
    ∀ q ∈ ensureModel j m, (Prod.snd q).up.Nodup := by
  intro q hq
  unfold ensureModel at hq
  by_cases hany : (m.any (fun p => p.1 = j)) = true
  · rw [if_pos hany] at hq
    exact h q hq
  · rw [if_neg hany] at hq
    rcases List.mem_append.mp hq with hq2 | hq2
    · exact h q hq2
    · rw [List.mem_singleton] at hq2
      subst hq2
      exact List.nodup_nil

theorem upNodup_recordEdge (jid : Option String) (m : Model) (nextId : String)
    (h : ∀ q ∈ m, (Prod.snd q).up.Nodup) :
    ∀ q ∈ recordEdge jid m nextId, (Prod.snd q).up.Nodup := by
  cases jid with
  | none => exact upNodup_ensure nextId m h
  | some j =>
    unfold recordEdge addUp
    apply upNodup_update
    · intro n hn
      exact nodup_insertKey n.up j hn
    · apply upNodup_ensure
      unfold addDown
      apply upNodup_update
      · intro n hn
        exact hn
      · exact h

theorem ppp_invariants (jobIdx : List String) (jid : Option String) :
    ∀ (pairs : List (String × JValue)) (m m2 : Model),
      processNextPairs jobIdx jid m pairs = .ok m2 →
      (modelKeys m).Nodup → (∀ q ∈ m, (Prod.snd q).up.Nodup) →
      (modelKeys m2).Nodup ∧ (∀ q ∈ m2, (Prod.snd q).up.Nodup) := by
  intro pairs
  induction pairs with
  | nil =>
    intro m m2 h hk hu
    unfold processNextPairs at h
    obtain rfl : m = m2 := by injection h
    exact ⟨hk, hu⟩
  | cons q rest ih =>
    obtain ⟨nextId, v⟩ := q
    intro m m2 h hk hu
    unfold processNextPairs at h
    by_cases hmem : nextId ∈ jobIdx
    · rw [if_pos hmem] at h
      exact ih _ _ h (keysNodup_recordEdge jid m nextId hk)
        (upNodup_recordEdge jid m nextId hu)
    · rw [if_neg hmem] at h
      exact absurd h (by simp)

theorem ensureSelf_invariants (jid : Option String) (m : Model)
    (hk : (modelKeys m).Nodup) (hu : ∀ q ∈ m, (Prod.snd q).up.Nodup) :
    (modelKeys (ensureSelf jid m)).Nodup ∧
      (∀ q ∈ ensureSelf jid m, (Prod.snd q).up.Nodup) := by
  cases jid with
  | none => exact ⟨hk, hu⟩
  | some j => exact ⟨keysNodup_ensure j m hk, upNodup_ensure j m hu⟩

theorem processStep_invariants (jobIdx : List String) (m m2 : Model) (s : RStep)
    (h : processStep jobIdx m s = .ok m2)
    (hk : (modelKeys m).Nodup) (hu : ∀ q ∈ m, (Prod.snd q).up.Nodup) :
    (modelKeys m2).Nodup ∧ (∀ q ∈ m2, (Prod.snd q).up.Nodup) := by
  obtain ⟨hk0, hu0⟩ := ensureSelf_invariants (truthyKey s) m hk hu
  by_cases hstr : ∃ target, getField s "next" = some (.str target)
  · obtain ⟨target, htgt⟩ := hstr
    rw [processStep_eq_str jobIdx m s target htgt] at h
    by_cases hmem : target ∈ jobIdx
    · rw [if_pos hmem] at h
      obtain rfl : ensureSelf (truthyKey s) m = m2 := by injection h
      exact ⟨hk0, hu0⟩
    · rw [if_neg hmem] at h
      exact absurd h (by simp)
  · push_neg at hstr
    rw [processStep_eq_other jobIdx m s hstr] at h
    exact ppp_invariants jobIdx (truthyKey s) (nextPairs s) _ _ h hk0 hu0

theorem bms_invariants (jobIdx : List String) :
    ∀ (steps : List RStep) (m m2 : Model),
      buildModelSteps jobIdx m steps = .ok m2 →
      (modelKeys m).Nodup → (∀ q ∈ m, (Prod.snd q).up.Nodup) →
      (modelKeys m2).Nodup ∧ (∀ q ∈ m2, (Prod.snd q).up.Nodup) := by
  intro steps
  induction steps with
  | nil =>
    intro m m2 h hk hu
    unfold buildModelSteps at h
    obtain rfl : m = m2 := by injection h
    exact ⟨hk, hu⟩
  | cons s rest ih =>
    intro m m2 h hk hu
    unfold buildModelSteps at h
    cases hps : processStep jobIdx m s with
    | error e =>
      rw [hps] at h
      exact absurd h (by simp)
    | ok m1 =>
      rw [hps] at h
      obtain ⟨hk1, hu1⟩ := processStep_invariants jobIdx m m1 s hps hk hu
      exact ih _ _ h hk1 hu1

/-! ## The model built from an empty accumulator -/

theorem upMem_nil (t u : String) : ¬ upMem ([] : Model) t u := by
  rintro ⟨node, hn, -⟩
  exact Option.noConfusion hn

theorem downMem_nil (t d : String) : ¬ downMem ([] : Model) t d := by
  rintro ⟨node, hn, -⟩
  exact Option.noConfusion hn

theorem buildModel_up_iff (p : Plan) (m : Model) (h : buildModel p = .ok m) (t u : String) :
    upMem m t u ↔ edgeB p.steps u t = true := by
  rw [bms_up (jobIdxOf p.steps) p.steps [] m h t u]
  simp [upMem_nil t u]

theorem buildModel_down_iff (p : Plan) (m : Model) (h : buildModel p = .ok m) (t d : String) :
    downMem m t d ↔ edgeB p.steps t d = true := by
  rw [bms_down (jobIdxOf p.steps) p.steps [] m h t d]
  simp [downMem_nil t d]

theorem buildModel_invariants (p : Plan) (m : Model) (h : buildModel p = .ok m) :
    (modelKeys m).Nodup ∧ (∀ q ∈ m, (Prod.snd q).up.Nodup) :=
  bms_invariants (jobIdxOf p.steps) p.steps [] m h List.nodup_nil (by simp)

/-! ## Lookup versus membership -/

theorem mem_of_lookup (m : Model) (t : String) (node : ModelNode)
    (h : lookupModel m t = some node) : (t, node) ∈ m := by
  unfold lookupModel at h
  cases hf : m.find? (fun p => p.1 = t) with
  | none =>
    rw [hf] at h
    exact Option.noConfusion h
  | some q =>
    rw [hf] at h
    have hq : q ∈ m := List.mem_of_find?_eq_some hf
    have hpred := List.find?_some hf
    have h1 : q.1 = t := by simpa using hpred
    have h2 : q.2 = node := by injection h
    have : q = (t, node) := Prod.ext h1 h2
    rwa [this] at hq

theorem lookup_of_mem_keysNodup (m : Model) (t : String) (node : ModelNode)
    (hnd : (modelKeys m).Nodup) (hmem : (t, node) ∈ m) :
    lookupModel m t = some node := by
  induction m with
  | nil => exact absurd hmem (by simp)
  | cons q rest ih =>
    obtain ⟨k, n⟩ := q
    rw [lookupModel_cons]
    rcases List.mem_cons.mp hmem with heq | htail
    · obtain ⟨rfl, rfl⟩ : k = t ∧ n = node := by
        constructor <;> injection heq <;> simp_all
      rw [if_pos rfl]
    · by_cases hkt : k = t
      · exfalso
        subst hkt
        rw [modelKeys] at hnd
        simp only [List.map_cons, List.nodup_cons] at hnd
        exact hnd.1 (List.mem_map.mpr ⟨(k, node), htail, rfl⟩)
      · rw [if_neg hkt]
        apply ih
        · rw [modelKeys] at hnd ⊢
          simp only [List.map_cons, List.nodup_cons] at hnd
          exact hnd.2
        · exact htail

/-! ## The single-input check -/

theorem assertSingleton_ok_bound (m : Model)
    (h : assertSingletonDependencies m = .ok ()) :
    ∀ q ∈ m, (Prod.snd q).up.length ≤ 1 := by
  induction m with
  | nil =>
    intro q hq
    exact absurd hq (by simp)
  | cons q0 rest ih =>
    obtain ⟨id, node⟩ := q0
    intro q hq
    unfold assertSingletonDependencies at h
    by_cases hl : node.up.length > 1
    · rw [if_pos hl] at h
      exact absurd h (by simp)
    · rw [if_neg hl] at h
      rcases List.mem_cons.mp hq with rfl | htail
      · show node.up.length ≤ 1
        omega
      · exact ih h q htail

theorem assertSingleton_error_of_big (m : Model) :
    ∀ q ∈ m, 1 < (Prod.snd q).up.length →
      ∃ t node, (t, node) ∈ m ∧ 1 < node.up.length ∧
        assertSingletonDependencies m =
          .error ("Multiple dependencies detected for: " ++ t) := by
  induction m with
  | nil =>
    intro q hq
    exact absurd hq (by simp)
  | cons q0 rest ih =>
    obtain ⟨id, node⟩ := q0
    intro q hq hlen
    by_cases hl : node.up.length > 1
    · refine ⟨id, node, by simp, hl, ?_⟩
      unfold assertSingletonDependencies
      rw [if_pos hl]
    · rcases List.mem_cons.mp hq with rfl | htail
      · exact absurd hlen hl
      · obtain ⟨t, node2, hmem, hbig, herr⟩ := ih q htail hlen
        refine ⟨t, node2, by simp [hmem], hbig, ?_⟩
        unfold assertSingletonDependencies
        rw [if_neg hl]
        exact herr

/-! ## Small list facts -/

theorem one_lt_length_of_two_mem {l : List String} {a b : String}
    (hab : a ≠ b) (ha : a ∈ l) (hb : b ∈ l) : 1 < l.length := by
  match l with
  | [] => exact absurd ha (by simp)
  | [x] =>
    rw [List.mem_singleton] at ha hb
    exact absurd (ha.trans hb.symm) hab
  | x :: y :: rest => simp

theorem two_distinct_mem_of_nodup {l : List String} (hnd : l.Nodup) (hlen : 1 < l.length) :
    ∃ a b, a ≠ b ∧ a ∈ l ∧ b ∈ l := by
  match l with
  | [] => simp at hlen
  | [x] => simp at hlen
  | x :: y :: rest =>
    refine ⟨x, y, ?_, by simp, by simp⟩
    intro hxy
    rw [List.nodup_cons] at hnd
    exact hnd.1 (by simp [hxy])

/-! ## Claim C5 -/

/-- C5: a step whose `next` is a string only has the target's existence
checked: whenever the model builds, every string-form target names a declared
(truthy) id, and when — the earlier checks passing — a string-form target is
not declared, `validate` raises `Cannot find job: <id>`.  The model records
an up edge into `t` from `u` (and a down edge from `u` to `t`) exactly when
some step with truthy id `u` names `t` in MAPPING-form `next` (`edgeB`):
string-form `next` contributes no edge, and a mapping edge's `up` entry
exists only when the source step itself has an id. -/
theorem C5_string_next_existence_only :
    (∀ (p : Plan) (m : Model), buildModel p = .ok m →
      (∀ s ∈ p.steps, ∀ target, getField s "next" = some (.str target) →
        target ∈ jobIdxOf p.steps) ∧
      (∀ t u, upMem m t u ↔ edgeB p.steps u t = true) ∧
      (∀ t d, downMem m t d ↔ edgeB p.steps t d = true)) ∧
    (∀ (fuel : Nat) (opts : RStep) (pre : List RStep) (step : RStep) (post : List RStep)
        (target : String),
      planIssues ⟨opts, pre ++ step :: post⟩ = [] →
      assertStart ⟨opts, pre ++ step :: post⟩ = .ok () →
      (∀ s ∈ pre, ∀ k ∈ nextTargets s, k ∈ jobIdxOf (pre ++ step :: post)) →
      getField step "next" = some (.str target) →
      target ∉ jobIdxOf (pre ++ step :: post) →
      validate fuel ⟨opts, pre ++ step :: post⟩ =
        .error ("Cannot find job: " ++ target)) := by
  constructor
  · intro p m h
    exact ⟨bms_string_targets (jobIdxOf p.steps) p.steps [] m h,
      buildModel_up_iff p m h, buildModel_down_iff p m h⟩
  · intro fuel opts pre step post target h1 h2 hpre htgt hmem
    apply validate_eq_of_model_error fuel _ _ h1 h2
    show buildModelSteps (jobIdxOf (pre ++ step :: post)) [] (pre ++ step :: post) = _
    exact bms_err_str (jobIdxOf (pre ++ step :: post)) pre [] step post target hpre htgt hmem

/-- Witness for C5: the plan `a {next:'b'}`, `b` builds a model with no
`a → b` edge, and a plan whose string-form `next` names the unknown `zz` is
rejected with `Cannot find job: zz`. -/
theorem C5_string_next_existence_only_witness :
    (¬ upMem [("a", ⟨[], []⟩), ("b", ⟨[], []⟩)] "b" "a") ∧
    validate 10 planMissingStringTarget = .error ("Cannot find job: " ++ "zz") := by
  constructor
  · intro hup
    have hiff := (C5_string_next_existence_only.1 planStringNextOnly
      [("a", ⟨[], []⟩), ("b", ⟨[], []⟩)] (by decide)).2.1 "b" "a"
    exact absurd (hiff.mp hup) (by decide)
  · exact C5_string_next_existence_only.2 10 [] []
      [("id", .str "a"), ("next", .str "zz"), ("expression", .str ".")] [] "zz"
      (by decide) (by decide) (fun s hs => absurd hs (by simp))
      (by decide) (by decide)

/-! ## Claim C6 -/

/-- C6 counterexample: two DISTINCT steps (the first with id `a`, the second
anonymous) both name `t` in mapping-form `next`, yet `validate` returns
`true`: the anonymous source records no upstream edge, so `t` keeps a single
upstream neighbour and no `Multiple dependencies detected for: t` is
raised. -/
theorem C6_counterexample :
    validate 10 planTwoFeedersOneAnon = .ok true ∧
    planTwoFeedersOneAnon.steps.getD 0 [] ≠ planTwoFeedersOneAnon.steps.getD 1 [] ∧
    nextMapKeys (planTwoFeedersOneAnon.steps.getD 0 []) = ["t"] ∧
    nextMapKeys (planTwoFeedersOneAnon.steps.getD 1 []) = ["t"] := by
  refine ⟨by decide, by decide, by decide, by decide⟩

/-- C6 amended: upstream neighbours are counted per distinct SOURCE ID, and
only steps that themselves have a (truthy) id contribute one — anonymous
steps record no upstream edge and steps sharing an id collapse into one
neighbour.  Whenever two distinct ids `u1 ≠ u2` both name `t` in
mapping-form `next` (and the checks before the single-input rule pass),
`validate` raises `Multiple dependencies detected for: <id>` naming a step
with two distinct upstream source ids. -/
theorem C6_amended_multiple_upstream_ids (fuel : Nat) (p : Plan) (m : Model)
    (t u1 u2 : String)
    (h1 : planIssues p = []) (h2 : assertStart p = .ok ())
    (h3 : buildModel p = .ok m)
    (h4 : assertNoCircularReferences m fuel = .ok ())
    (hne : u1 ≠ u2)
    (he1 : edgeB p.steps u1 t = true) (he2 : edgeB p.steps u2 t = true) :
    ∃ t2 v1 v2,
      validate fuel p = .error ("Multiple dependencies detected for: " ++ t2) ∧
      v1 ≠ v2 ∧ edgeB p.steps v1 t2 = true ∧ edgeB p.steps v2 t2 = true := by
  obtain ⟨node, hlook, hu1⟩ := (buildModel_up_iff p m h3 t u1).mpr he1
  obtain ⟨node2, hlook2, hu2⟩ := (buildModel_up_iff p m h3 t u2).mpr he2
  rw [hlook] at hlook2
  obtain rfl : node = node2 := by injection hlook2
  have hlen : 1 < node.up.length := one_lt_length_of_two_mem hne hu1 hu2
  have hmem : (t, node) ∈ m := mem_of_lookup m t node hlook
  obtain ⟨t2, nodeT, hmemT, hbigT, herr⟩ :=
    assertSingleton_error_of_big m (t, node) hmem hlen
  obtain ⟨hkeys, hups⟩ := buildModel_invariants p m h3
  have hndT : nodeT.up.Nodup := hups (t2, nodeT) hmemT
  obtain ⟨a, b, hab, haT, hbT⟩ := two_distinct_mem_of_nodup hndT hbigT
  have hlookT : lookupModel m t2 = some nodeT :=
    lookup_of_mem_keysNodup m t2 nodeT hkeys hmemT
  refine ⟨t2, a, b, ?_, hab,
    (buildModel_up_iff p m h3 t2 a).mp ⟨nodeT, hlookT, haT⟩,
    (buildModel_up_iff p m h3 t2 b).mp ⟨nodeT, hlookT, hbT⟩⟩
  exact validate_eq_of_singleton_error fuel p m _ h1 h2 h3 h4 herr

/-- Witness for C6 amended at the plan `a {next:{t}}`, `b {next:{t}}`, `t`. -/
theorem C6_amended_multiple_upstream_ids_witness :
    ∃ t2 v1 v2,
      validate 20 planTwoFeeders = .error ("Multiple dependencies detected for: " ++ t2) ∧
      v1 ≠ v2 ∧ edgeB planTwoFeeders.steps v1 t2 = true ∧
      edgeB planTwoFeeders.steps v2 t2 = true :=
  C6_amended_multiple_upstream_ids 20 planTwoFeeders modelTwoFeeders "t" "a" "b"
    (by decide) (by decide) (by decide) (by decide) (by decide) (by decide) (by decide)

/-! ## Claim C10 -/

theorem getField_cons (key : String) (v : JValue) (s : RStep) (k : String) :
    getField ((key, v) :: s) k = if key = k then some v else getField s k := by
  by_cases h : key = k
  · rw [if_pos h]
    unfold getField
    rw [List.find?_cons_of_pos _ (by simpa using h)]
    rfl
  · rw [if_neg h]
    unfold getField
    rw [List.find?_cons_of_neg _ (by simpa using h)]

theorem getField_mapStep_ne (f : JValue → JValue) (s : RStep) (k : String)
    (hk : ¬ k = "next") :
    getField (mapStepNextValues f s) k = getField s k := by
  induction s with
  | nil => rfl
  | cons q rest ih =>
    obtain ⟨key, v⟩ := q
    have hmap : mapStepNextValues f ((key, v) :: rest)
        = (if key = "next" then (key, mapNextValue f v) else (key, v))
          :: mapStepNextValues f rest := rfl
    rw [hmap]
    by_cases hkey : key = "next"
    · rw [if_pos hkey, getField_cons, getField_cons]
      have hne : ¬ key = k := fun hc => hk (hc.symm.trans hkey)
      rw [if_neg hne, if_neg hne, ih]
    · rw [if_neg hkey, getField_cons, getField_cons]
      by_cases hkk : key = k
      · rw [if_pos hkk, if_pos hkk]
      · rw [if_neg hkk, if_neg hkk, ih]

theorem getField_mapStep_next (f : JValue → JValue) (s : RStep) :
    getField (mapStepNextValues f s) "next" =
      (getField s "next").map (mapNextValue f) := by
  induction s with
  | nil => rfl
  | cons q rest ih =>
    obtain ⟨key, v⟩ := q
    have hmap : mapStepNextValues f ((key, v) :: rest)
        = (if key = "next" then (key, mapNextValue f v) else (key, v))
          :: mapStepNextValues f rest := rfl
    rw [hmap]
    by_cases hkey : key = "next"
    · rw [if_pos hkey, getField_cons, getField_cons, if_pos hkey, if_pos hkey]
      rfl
    · rw [if_neg hkey, getField_cons, getField_cons, if_neg hkey, if_neg hkey, ih]

theorem nextFieldIssues_map (f : JValue → JValue) (path : List String) (v : Option JValue) :
    nextFieldIssues path (v.map (mapNextValue f)) = nextFieldIssues path v := by
  cases v with
  | none => rfl
  | some w => cases w <;> rfl

theorem stepIssues_mapStep (f : JValue → JValue) (base : List String) (s : RStep) :
    stepIssues base (mapStepNextValues f s) = stepIssues base s := by
  unfold stepIssues
  rw [getField_mapStep_ne f s "id" (by decide), getField_mapStep_ne f s "name" (by decide),
    getField_mapStep_next, getField_mapStep_ne f s "adaptor" (by decide),
    getField_mapStep_ne f s "expression" (by decide), nextFieldIssues_map]

theorem planIssues_mapPlan (f : JValue → JValue) (p : Plan) :
    planIssues (mapPlanNextValues f p) = planIssues p := by
  unfold planIssues mapPlanNextValues
  show optionsIssues p.options ++ _ = optionsIssues p.options ++ _
  congr 1
  rw [List.enum_map, List.map_map]
  congr 1
  apply List.map_congr_left
  intro q _
  obtain ⟨i, st⟩ := q
  exact stepIssues_mapStep f ["workflow", "steps", toString i] st

theorem assertStart_eq_str (p : Plan) (start : String)
    (h : getField p.options "start" = some (.str start)) :
    assertStart p =
      (if p.steps.any (fun s => decide (getField s "id" = some (.str start))) then .ok ()
       else .error ("Could not find start job: " ++ start)) := by
  unfold assertStart
  rw [h]

theorem assertStart_eq_none (p : Plan)
    (h : ∀ st, getField p.options "start" ≠ some (.str st)) :
    assertStart p = .ok () := by
  unfold assertStart
  cases hx : getField p.options "start" with
  | none => rfl
  | some v =>
    cases v with
    | str st => exact absurd hx (h st)
    | num n => rfl
    | bool b => rfl
    | null => rfl
    | arr xs => rfl
    | obj fs => rfl

theorem assertStart_mapPlan (f : JValue → JValue) (p : Plan) :
    assertStart (mapPlanNextValues f p) = assertStart p := by
  by_cases hstr : ∃ st, getField p.options "start" = some (.str st)
  · obtain ⟨start, hst⟩ := hstr
    have hst2 : getField (mapPlanNextValues f p).options "start" = some (.str start) := hst
    rw [assertStart_eq_str _ _ hst2, assertStart_eq_str _ _ hst]
    have hany : (mapPlanNextValues f p).steps.any
          (fun s => decide (getField s "id" = some (.str start)))
        = p.steps.any (fun s => decide (getField s "id" = some (.str start))) := by
      show (p.steps.map (mapStepNextValues f)).any _ = _
      rw [List.any_map]
      congr 1
      funext s
      show decide (getField (mapStepNextValues f s) "id" = some (.str start)) = _
      rw [getField_mapStep_ne f s "id" (by decide)]
    rw [hany]
  · push_neg at hstr
    rw [assertStart_eq_none p hstr]
    exact assertStart_eq_none (mapPlanNextValues f p) hstr

theorem truthyKey_mapStep (f : JValue → JValue) (s : RStep) :
    truthyKey (mapStepNextValues f s) = truthyKey s := by
  unfold truthyKey
  rw [getField_mapStep_ne f s "id" (by decide)]

theorem jobIdx_mapSteps (f : JValue → JValue) (steps : List RStep) :
    jobIdxOf (steps.map (mapStepNextValues f)) = jobIdxOf steps := by
  unfold jobIdxOf
  rw [List.filterMap_map]
  apply List.filterMap_congr
  intro s _
  exact truthyKey_mapStep f s

theorem nextPairs_keys_mapStep (f : JValue → JValue) (s : RStep) :
    (nextPairs (mapStepNextValues f s)).map (fun q => q.1) =
      (nextPairs s).map (fun q => q.1) := by
  unfold nextPairs
  rw [getField_mapStep_next]
  cases hx : getField s "next" with
  | none => rfl
  | some v =>
    cases v with
    | obj pairs =>
      show (pairs.map (fun q => (q.1, f q.2))).map (fun q => q.1) = _
      rw [List.map_map]
      rfl
    | str t => rfl
    | num n => rfl
    | bool b => rfl
    | null => rfl
    | arr xs => rfl

theorem ppp_keys_congr (jobIdx : List String) (jid : Option String) :
    ∀ (pairs pairs2 : List (String × JValue)) (m : Model),
      pairs.map (fun q => q.1) = pairs2.map (fun q => q.1) →
      processNextPairs jobIdx jid m pairs = processNextPairs jobIdx jid m pairs2 := by
  intro pairs
  induction pairs with
  | nil =>
    intro pairs2 m h
    obtain rfl : pairs2 = [] := by
      cases pairs2 with
      | nil => rfl
      | cons q r => exact absurd h (by simp)
    rfl
  | cons q rest ih =>
    obtain ⟨k, v⟩ := q
    intro pairs2 m h
    cases pairs2 with
    | nil => exact absurd h (by simp)
    | cons q2 rest2 =>
      obtain ⟨k2, v2⟩ := q2
      simp only [List.map_cons, List.cons.injEq] at h
      obtain ⟨rfl, hrest⟩ := h
      unfold processNextPairs
      by_cases hmem : k ∈ jobIdx
      · rw [if_pos hmem, if_pos hmem]
        exact ih rest2 (recordEdge jid m k) hrest
      · rw [if_neg hmem, if_neg hmem]

theorem processStep_mapStep (f : JValue → JValue) (jobIdx : List String) (m : Model)
    (s : RStep) :
    processStep jobIdx m (mapStepNextValues f s) = processStep jobIdx m s := by
  by_cases hstr : ∃ target, getField s "next" = some (.str target)
  · obtain ⟨target, htgt⟩ := hstr
    have htgt2 : getField (mapStepNextValues f s) "next" = some (.str target) := by
      rw [getField_mapStep_next, htgt]
      rfl
    rw [processStep_eq_str jobIdx m _ target htgt2,
      processStep_eq_str jobIdx m s target htgt, truthyKey_mapStep]
  · push_neg at hstr
    have hstr2 : ∀ target, getField (mapStepNextValues f s) "next" ≠ some (.str target) := by
      intro target hc
      rw [getField_mapStep_next] at hc
      cases hx : getField s "next" with
      | none => rw [hx] at hc; exact Option.noConfusion hc
      | some w =>
        rw [hx] at hc
        cases w with
        | str t => exact hstr t hx
        | num n => exact JValue.noConfusion (Option.some.inj hc)
        | bool b => exact JValue.noConfusion (Option.some.inj hc)
        | null => exact JValue.noConfusion (Option.some.inj hc)
        | arr xs => exact JValue.noConfusion (Option.some.inj hc)
        | obj fs => exact JValue.noConfusion (Option.some.inj hc)
    rw [processStep_eq_other jobIdx m _ hstr2, processStep_eq_other jobIdx m s hstr,
      truthyKey_mapStep]
    exact ppp_keys_congr jobIdx (truthyKey s) _ _ _ (nextPairs_keys_mapStep f s)

theorem bms_mapSteps (f : JValue → JValue) (jobIdx : List String) :
    ∀ (steps : List RStep) (m : Model),
      buildModelSteps jobIdx m (steps.map (mapStepNextValues f)) =
        buildModelSteps jobIdx m steps := by
  intro steps
  induction steps with
  | nil => intro m; rfl
  | cons s rest ih =>
    intro m
    show buildModelSteps jobIdx m
        (mapStepNextValues f s :: rest.map (mapStepNextValues f)) = _
    unfold buildModelSteps
    rw [processStep_mapStep]
    cases processStep jobIdx m s with
    | error e => rfl
    | ok m1 => exact ih m1

theorem buildModel_mapPlan (f : JValue → JValue) (p : Plan) :
    buildModel (mapPlanNextValues f p) = buildModel p := by
  show buildModelSteps (jobIdxOf (p.steps.map (mapStepNextValues f))) []
      (p.steps.map (mapStepNextValues f)) = _
  rw [jobIdx_mapSteps]
  exact bms_mapSteps f (jobIdxOf p.steps) p.steps []

theorem keysOf_mapStep (f : JValue → JValue) (s : RStep) :
    keysOf (mapStepNextValues f s) = keysOf s := by
  unfold keysOf mapStepNextValues
  rw [List.map_map]
  apply List.map_congr_left
  intro q _
  by_cases hq : q.1 = "next"
  · simp [hq]
  · simp [hq]

theorem invalidKeyCheck_mapStep (f : JValue → JValue) (s : RStep) (l : List String) :
    invalidKeyCheck (mapStepNextValues f s) l = invalidKeyCheck s l := by
  induction l with
  | nil => rfl
  | cons k rest ih =>
    unfold invalidKeyCheck
    by_cases hk : k ∈ validKeys
    · rw [if_pos hk, if_pos hk, ih]
    · rw [if_neg hk, if_neg hk]
      unfold invalidKeyMsg
      rw [getField_mapStep_ne f s "id" (by decide)]

theorem stepKeysCheck_mapStep (f : JValue → JValue) (s : RStep) :
    stepKeysCheck (mapStepNextValues f s) = stepKeysCheck s := by
  unfold stepKeysCheck
  have hade : hasAdaptorNoExpr (mapStepNextValues f s) = hasAdaptorNoExpr s := by
    unfold hasAdaptorNoExpr
    rw [getField_mapStep_ne f s "adaptor" (by decide),
      getField_mapStep_ne f s "expression" (by decide)]
  have hmsg : adaptorErrMsg (mapStepNextValues f s) = adaptorErrMsg s := by
    unfold adaptorErrMsg
    rw [getField_mapStep_ne f s "adaptor" (by decide),
      getField_mapStep_ne f s "id" (by decide)]
  rw [hade, hmsg, keysOf_mapStep, invalidKeyCheck_mapStep]

theorem assertStepKeys_mapSteps (f : JValue → JValue) (steps : List RStep) :
    assertStepKeys (steps.map (mapStepNextValues f)) = assertStepKeys steps := by
  induction steps with
  | nil => rfl
  | cons s rest ih =>
    show assertStepKeys (mapStepNextValues f s :: rest.map (mapStepNextValues f)) = _
    unfold assertStepKeys
    rw [stepKeysCheck_mapStep]
    cases stepKeysCheck s with
    | error e => rfl
    | ok u => exact ih

theorem dupIdLoop_mapSteps (f : JValue → JValue) :
    ∀ (steps : List RStep) (seen : List (Option JValue)),
      dupIdLoop seen (steps.map (mapStepNextValues f)) = dupIdLoop seen steps := by
  intro steps
  induction steps with
  | nil => intro seen; rfl
  | cons s rest ih =>
    intro seen
    show dupIdLoop seen (mapStepNextValues f s :: rest.map (mapStepNextValues f)) = _
    unfold dupIdLoop
    rw [getField_mapStep_ne f s "id" (by decide)]
    by_cases hmem : getField s "id" ∈ seen
    · rw [if_pos hmem, if_pos hmem]
    · rw [if_neg hmem, if_neg hmem, ih]

/-- C10: the step schema places no constraint on the values of a
mapping-form `next` — transforming every `next`-edge value by an arbitrary
function (e.g. turning every guard into `'invalid'` or `42`) changes neither
the schema issues of the plan — so `validate` never raises a schema error on
account of a `next`-edge value — nor any other outcome of `validate`. -/
theorem C10_next_edge_values_unconstrained (f : JValue → JValue) (p : Plan) (fuel : Nat) :
    planIssues (mapPlanNextValues f p) = planIssues p ∧
    validate fuel (mapPlanNextValues f p) = validate fuel p := by
  have hpi := planIssues_mapPlan f p
  have hst := assertStart_mapPlan f p
  have hbm := buildModel_mapPlan f p
  have hsk : assertStepKeys (mapPlanNextValues f p).steps = assertStepKeys p.steps :=
    assertStepKeys_mapSteps f p.steps
  have hdup : assertValidStepIds (mapPlanNextValues f p).steps =
      assertValidStepIds p.steps := by
    unfold assertValidStepIds
    exact dupIdLoop_mapSteps f p.steps []
  refine ⟨hpi, ?_⟩
  unfold validate
  rw [hpi, hst, hbm, hsk, hdup]
